import Mathlib

/-!
Shallow embedding of the `filesearch` package (src/find.go), a stateful
directory walker that reports files through a callback and optionally
suppresses duplicates by content hash.

Modelling conventions:
- Go strings are Lean `String`s; `strings.TrimPrefix` is embedded as
  `trimPrefixGo` on the underlying character lists.
- The filesystem is a finite tree (`FsEntry`); `filepath.Walk`'s driver
  (visit entry, recurse into directories, honour `SkipDir`) is embedded as
  the mutually recursive `walkEntry`/`walkList`, with the per-entry logic
  `fileWalkFunc` a line-by-line translation of
  `statefulFileWalker.fileWalkFunc`.
- Go's `error` values are the inductive `GoError`; `filepath.SkipDir` is the
  distinguished result `StepRes.skipDir`, handled by the driver exactly as
  `filepath.Walk` handles it.
- The walker's mutable state (the dedup map `fileHashesToPrevious`) is
  threaded explicitly through `WalkState`; in addition `WalkState` carries
  instrumentation traces recording every `fileWalkFunc` invocation
  (`visited`), every include-predicate invocation (`predCalls`), every
  `hashFile` invocation (`hashedFiles`), every dedup-map lookup
  (`dedupLookups`) and every record passed to the found callback
  (`reports`). The traces are append-only logs of the calls the Go code
  makes; they do not influence control flow.
- The streaming hash primitive is an external collaborator; it is embedded
  as a function from file content to digest string. Opening/reading a file
  can fail; a file's read outcome is part of its `FsEntry`.
-/

/-- Go `error` values produced or propagated by the package. -/
inductive GoError where
  /-- `fmt.Errorf("IncludeFileFn cannot be nil")` and friends from `Validate`. -/
  | validationFail (msg : String)
  /-- An operating-system I/O failure (open/read), the underlying cause. -/
  | ioFail (msg : String)
  /-- `fmt.Errorf("failed to hash file '%s' - %w", filePath, err)`:
      wraps the cause and records the offending file's path. -/
  | hashWrap (filePath : String) (cause : GoError)
  /-- An error value returned by the caller's found callback. -/
  | cbFail (msg : String)
  /-- An error reported by the traversal primitive for an entry. -/
  | walkFail (msg : String)
deriving Repr, DecidableEq

instance : DecidableEq (Except GoError String) := fun a b =>
  match a, b with
  | .error x, .error y =>
      if h : x = y then isTrue (by rw [h])
      else isFalse (by intro hc; cases hc; exact h rfl)
  | .error _, .ok _ => isFalse (by intro hc; cases hc)
  | .ok _, .error _ => isFalse (by intro hc; cases hc)
  | .ok x, .ok y =>
      if h : x = y then isTrue (by rw [h])
      else isFalse (by intro hc; cases hc; exact h rfl)

/-- The slice of `os.FileInfo` the walker consults, together with the
outcome of reading the file's content (the platform read collaborator). -/
structure FInfo where
  isDir : Bool
  regular : Bool
  content : Except GoError String
deriving Repr, DecidableEq

/-- `StatefulFileInfo` from src/find.go, the record passed to the found
callback. `Info` keeps the underlying file metadata. -/
structure StatefulFileInfo where
  AlreadySeen : Bool
  FilePath : String
  PreviousFilePath : String
  ParentDirPath : String
  Hash : String
  Info : FInfo
  AbsSearchDirPath : String
deriving Repr, DecidableEq

/-- `FindUniqueFilesConfig` from src/find.go. Function-typed fields are
`Option`s because Go function values can be nil; `Validate` checks this. -/
structure FindUniqueFilesConfig where
  TargetDirPath : String
  Recursive : Bool
  AllowDupes : Bool
  HasherFn : Option (String → String)
  IncludeFileFn : Option (String → Bool)
  FoundFileFn : Option (StatefulFileInfo → Option GoError)

/-- `FindUniqueFilesConfig.Validate`: nil checks, include predicate first. -/
def FindUniqueFilesConfig.Validate (o : FindUniqueFilesConfig) : Option GoError :=
  if o.IncludeFileFn.isNone then
    some (.validationFail "IncludeFileFn cannot be nil")
  else if o.FoundFileFn.isNone then
    some (.validationFail "FoundFileFn cannot be nil")
  else
    none

/-- `FindUniqueFilesConfig.pickHasher`: the user hasher, or the sha256
default. The default digest function is the platform collaborator `sha`. -/
def FindUniqueFilesConfig.pickHasher (o : FindUniqueFilesConfig)
    (sha : String → String) : String → String :=
  match o.HasherFn with
  | none => sha
  | some f => f

/-- `strings.TrimPrefix`: returns `s` without the leading `pre`;
`s` unchanged if `s` does not start with `pre`. -/
def trimPrefixGo (s pre : String) : String :=
  if pre.data.isPrefixOf s.data then { data := s.data.drop pre.data.length } else s

/-- `filepath.Dir` restricted to the clean paths this embedding builds:
everything before the last separator (the whole-path degenerate cases
`"."` and `"/"` as in Go). -/
def filepathDir (p : String) : String :=
  match (p.data.reverse.dropWhile (fun c => c != '/')) with
  | [] => "."
  | [_] => "/"
  | _ :: tail => { data := tail.reverse }

/-- `filepath.Join(dir, name)` for a clean `dir` not ending in a
separator (which is what `filepath.Abs` produces for non-root paths). -/
def joinPath (dir name : String) : String :=
  dir ++ "/" ++ name

/-- `hashFile` from src/find.go: open/read the file (its read outcome is
`content`), stream it through the hasher, hex-encode the digest. Failures
of open or read are returned unchanged. -/
def hashFile (content : Except GoError String) (hasher : String → String) :
    Except GoError String :=
  match content with
  | .error e => .error e
  | .ok data => .ok (hasher data)

/-- `statefulFileWalker` from src/find.go, after construction: the resolved
absolute target path plus the (validated, hence non-nil) configuration. -/
structure statefulFileWalker where
  absTargetDirPath : String
  Recursive : Bool
  AllowDupes : Bool
  hasher : String → String
  IncludeFileFn : String → Bool
  FoundFileFn : StatefulFileInfo → Option GoError

/-- The walker's mutable state (`fileHashesToPrevious`, an assoc list
standing for the Go map) plus append-only instrumentation traces of the
calls performed so far. -/
structure WalkState where
  fileHashesToPrevious : List (String × String)
  visited : List (String × FInfo)
  predCalls : List String
  hashedFiles : List String
  dedupLookups : List String
  reports : List StatefulFileInfo

def initState : WalkState :=
  { fileHashesToPrevious := []
    visited := []
    predCalls := []
    hashedFiles := []
    dedupLookups := []
    reports := [] }

/-- Go map read `previous, seen = m[k]`: value and comma-ok flag. -/
def mapGet (m : List (String × String)) (k : String) : String × Bool :=
  match m with
  | [] => ("", false)
  | (k', v) :: rest => if k' = k then (v, true) else mapGet rest k

/-- Go map write `m[k] = v` (the code only writes absent keys). -/
def mapInsert (m : List (String × String)) (k v : String) :
    List (String × String) :=
  (k, v) :: m

/-- Outcome of one `filepath.WalkFunc` call: nil, `filepath.SkipDir`,
or any other error. -/
inductive StepRes where
  | ok
  | skipDir
  | err (e : GoError)
deriving Repr, DecidableEq

/-- Tail of `statefulFileWalker.fileWalkFunc`: build the `StatefulFileInfo`
record and invoke `o.config.FoundFileFn`, propagating its error verbatim. -/
def emitReport (o : statefulFileWalker) (filePath : String) (info : FInfo)
    (s : WalkState) (hasBeenSeen : Bool) (previousFilePath fileHash : String) :
    WalkState × StepRes :=
  let sfi : StatefulFileInfo :=
    { AlreadySeen := hasBeenSeen
      FilePath := filePath
      PreviousFilePath := previousFilePath
      ParentDirPath := filepathDir filePath
      Hash := fileHash
      Info := info
      AbsSearchDirPath := o.absTargetDirPath }
  let s := { s with reports := s.reports ++ [sfi] }
  match o.FoundFileFn sfi with
  | some e => (s, .err e)
  | none => (s, .ok)

/-- `statefulFileWalker.fileWalkFunc`, translated branch by branch.
The first `let` logs the invocation itself (`visited`); the remaining
lines mirror src/find.go lines 134-177. -/
def fileWalkFunc (o : statefulFileWalker) (filePath : String) (info : FInfo)
    (err : Option GoError) (s : WalkState) : WalkState × StepRes :=
  let s := { s with visited := s.visited ++ [(filePath, info)] }
  match err with
  | some e => (s, .err e)
  | none =>
    if !o.Recursive && info.isDir && filePath ≠ o.absTargetDirPath then
      (s, .skipDir)
    else if info.isDir || !info.regular then
      (s, .ok)
    else
      let s := { s with predCalls := s.predCalls ++ [filePath] }
      if !o.IncludeFileFn filePath then
        (s, .ok)
      else if !o.AllowDupes then
        let s := { s with hashedFiles := s.hashedFiles ++ [filePath] }
        match hashFile info.content o.hasher with
        | .error e => (s, .err (.hashWrap filePath e))
        | .ok fileHash =>
          let s := { s with dedupLookups := s.dedupLookups ++ [fileHash] }
          let lk := mapGet s.fileHashesToPrevious fileHash
          let previousFilePath := lk.1
          let hasBeenSeen := lk.2
          let inserted :=
            mapInsert s.fileHashesToPrevious fileHash
              (trimPrefixGo filePath o.absTargetDirPath)
          let s :=
            if !hasBeenSeen then { s with fileHashesToPrevious := inserted }
            else s
          emitReport o filePath info s hasBeenSeen previousFilePath fileHash
      else
        emitReport o filePath info s false "" ""

/- A filesystem tree: what one run of `filepath.Walk` can observe under a
root. A mutual pair (instead of `List FsEntry`) so that the walk driver is
structurally recursive. -/
mutual
inductive FsEntry where
  | file (name : String) (regular : Bool) (content : Except GoError String)
  | dir (name : String) (entries : FsEntries)

inductive FsEntries where
  | nil
  | cons (head : FsEntry) (tail : FsEntries)
end

def FsEntry.name : FsEntry → String
  | .file n _ _ => n
  | .dir n _ => n

/-- The `os.FileInfo` view of an entry (directories are not regular). -/
def FsEntry.finfo : FsEntry → FInfo
  | .file _ reg content => { isDir := false, regular := reg, content := content }
  | .dir _ _ => { isDir := true, regular := false, content := .ok "" }

/-- Membership of an entry in a sibling list. -/
def FsEntries.Mem (e : FsEntry) : FsEntries → Prop
  | .nil => False
  | .cons h t => e = h ∨ FsEntries.Mem e t

/- `filepath.Walk`'s recursive driver `walk`, specialised to the
walker's `fileWalkFunc`: visit the entry; for a directory whose own visit
returned nil, walk its children in order, stopping on the first error and
treating `SkipDir` from a directory child as "skip that subtree". -/
mutual
def walkEntry (o : statefulFileWalker) (path : String) (e : FsEntry)
    (s : WalkState) : WalkState × StepRes :=
  match e with
  | .file _ reg content =>
      fileWalkFunc o path { isDir := false, regular := reg, content := content } none s
  | .dir _ entries =>
      match fileWalkFunc o path { isDir := true, regular := false, content := .ok "" } none s with
      | (s1, StepRes.ok) => walkList o path entries s1
      | (s1, StepRes.skipDir) => (s1, StepRes.skipDir)
      | (s1, StepRes.err e) => (s1, StepRes.err e)

def walkList (o : statefulFileWalker) (dirPath : String) (l : FsEntries)
    (s : WalkState) : WalkState × StepRes :=
  match l with
  | .nil => (s, StepRes.ok)
  | .cons e rest =>
      match walkEntry o (joinPath dirPath e.name) e s with
      | (s1, StepRes.err er) => (s1, StepRes.err er)
      | (s1, StepRes.skipDir) =>
          if e.finfo.isDir then walkList o dirPath rest s1
          else (s1, StepRes.skipDir)
      | (s1, StepRes.ok) => walkList o dirPath rest s1
end

/-- `statefulFileWalker.search`: one `filepath.Walk` from the resolved
root over the given tree; `filepath.Walk` turns a top-level `SkipDir`
into nil. Returns the final state (with traces) and the overall error. -/
def search (o : statefulFileWalker) (root : FsEntry) : WalkState × Option GoError :=
  match walkEntry o o.absTargetDirPath root initState with
  | (s, StepRes.ok) => (s, none)
  | (s, StepRes.skipDir) => (s, none)
  | (s, StepRes.err e) => (s, some e)

/-- `newFileWalker`: validate the config, then resolve the target path
with the platform primitive `absResolve` (`filepath.Abs`), then build the
walker. The `getD` defaults in the success branch are dead: `Validate`
returned none, so both functions are present. -/
def newFileWalker (config : FindUniqueFilesConfig)
    (absResolve : String → Except GoError String) (sha : String → String) :
    Except GoError statefulFileWalker :=
  match config.Validate with
  | some e => .error e
  | none =>
    match absResolve config.TargetDirPath with
    | .error e => .error e
    | .ok absTargetDirPath =>
      .ok { absTargetDirPath := absTargetDirPath
            Recursive := config.Recursive
            AllowDupes := config.AllowDupes
            hasher := config.pickHasher sha
            IncludeFileFn := config.IncludeFileFn.getD (fun _ => false)
            FoundFileFn := config.FoundFileFn.getD (fun _ => none) }

/-- `FindUniqueFiles`: construct the walker, then search. -/
def FindUniqueFiles (config : FindUniqueFilesConfig)
    (absResolve : String → Except GoError String) (sha : String → String)
    (root : FsEntry) : Option GoError :=
  match newFileWalker config absResolve sha with
  | .error e => some e
  | .ok sfw => (search sfw root).2

/-! ## Basic lemmas about the dedup map embedding -/

theorem mapGet_nil (k : String) : mapGet [] k = ("", false) := rfl

theorem mapGet_insert (m : List (String × String)) (k v d : String) :
    mapGet (mapInsert m k v) d = if k = d then (v, true) else mapGet m d := rfl

theorem mapGet_not_seen_val (m : List (String × String)) (k : String)
    (h : (mapGet m k).2 = false) : (mapGet m k).1 = "" := by
  induction m with
  | nil => rfl
  | cons p rest ih =>
      rcases p with ⟨k', v⟩
      by_cases hk : k' = k
      · simp [mapGet, hk] at h
      · simp [mapGet, hk] at h ⊢
        exact ih h

/-! ## The walk with `AllowDupes = true` (claims about skipped hashing)

`PAD s s'` relates a state to a later state of such a walk: the dedup map,
the hashing trace and the lookup trace are untouched, and every new report
is marked unseen with an empty digest and empty previous path. -/

def PAD (s s' : WalkState) : Prop :=
  s'.fileHashesToPrevious = s.fileHashesToPrevious ∧
  s'.hashedFiles = s.hashedFiles ∧
  s'.dedupLookups = s.dedupLookups ∧
  ∃ t, s'.reports = s.reports ++ t ∧
    ∀ r ∈ t, r.AlreadySeen = false ∧ r.Hash = "" ∧ r.PreviousFilePath = ""

theorem PAD_refl (s : WalkState) : PAD s s := by
  refine ⟨rfl, rfl, rfl, [], by simp, by simp⟩

theorem PAD_trans {s1 s2 s3 : WalkState} (h12 : PAD s1 s2) (h23 : PAD s2 s3) :
    PAD s1 s3 := by
  obtain ⟨hm12, hh12, hd12, t12, hr12, ha12⟩ := h12
  obtain ⟨hm23, hh23, hd23, t23, hr23, ha23⟩ := h23
  refine ⟨hm23.trans hm12, hh23.trans hh12, hd23.trans hd12, t12 ++ t23, ?_, ?_⟩
  · rw [hr23, hr12, List.append_assoc]
  · intro r hr
    rcases List.mem_append.mp hr with h | h
    · exact ha12 r h
    · exact ha23 r h

/-- The record built at the end of `fileWalkFunc` and handed to the
found callback. -/
def mkReport (o : statefulFileWalker) (filePath : String) (info : FInfo)
    (hasBeenSeen : Bool) (previousFilePath fileHash : String) : StatefulFileInfo :=
  { AlreadySeen := hasBeenSeen
    FilePath := filePath
    PreviousFilePath := previousFilePath
    ParentDirPath := filepathDir filePath
    Hash := fileHash
    Info := info
    AbsSearchDirPath := o.absTargetDirPath }

theorem emitReport_state (o : statefulFileWalker) (p : String) (i : FInfo)
    (s : WalkState) (b : Bool) (pv fh : String) :
    (emitReport o p i s b pv fh).1 =
      { s with reports := s.reports ++ [mkReport o p i b pv fh] } := by
  cases hc : o.FoundFileFn (mkReport o p i b pv fh) <;>
    simp [emitReport, mkReport] at hc ⊢ <;> simp [hc]

theorem emitReport_res (o : statefulFileWalker) (p : String) (i : FInfo)
    (s : WalkState) (b : Bool) (pv fh : String) :
    (emitReport o p i s b pv fh).2 =
      match o.FoundFileFn (mkReport o p i b pv fh) with
      | some e => StepRes.err e
      | none => StepRes.ok := by
  cases hc : o.FoundFileFn (mkReport o p i b pv fh) <;>
    simp [emitReport, mkReport] at hc ⊢ <;> simp [hc]

theorem fileWalkFunc_allowDupes (o : statefulFileWalker) (hAD : o.AllowDupes = true)
    (p : String) (i : FInfo) (s : WalkState) :
    PAD s (fileWalkFunc o p i none s).1 := by
  unfold fileWalkFunc
  simp only [hAD, Bool.not_true]
  split
  · exact PAD_refl _
  · split
    · exact PAD_refl _
    · split
      · exact PAD_refl _
      · simp only [if_false, Bool.false_eq_true, emitReport_state]
        exact ⟨rfl, rfl, rfl, [mkReport o p i false "" ""], by simp, by
          intro r hr
          simp at hr
          subst hr
          exact ⟨rfl, rfl, rfl⟩⟩

mutual
theorem walkEntry_allowDupes (o : statefulFileWalker) (hAD : o.AllowDupes = true)
    (p : String) (e : FsEntry) (s : WalkState) :
    PAD s (walkEntry o p e s).1 := by
  cases e with
  | file n reg content =>
      exact fileWalkFunc_allowDupes o hAD p _ s
  | dir n entries =>
      show PAD s (match fileWalkFunc o p { isDir := true, regular := false, content := .ok "" } none s with
        | (s1, StepRes.ok) => walkList o p entries s1
        | (s1, StepRes.skipDir) => (s1, StepRes.skipDir)
        | (s1, StepRes.err e) => (s1, StepRes.err e)).1
      have hstep := fileWalkFunc_allowDupes o hAD p { isDir := true, regular := false, content := .ok "" } s
      rcases hF : fileWalkFunc o p { isDir := true, regular := false, content := .ok "" } none s with ⟨s1, r⟩
      rw [hF] at hstep
      cases r with
      | ok => exact PAD_trans hstep (walkList_allowDupes o hAD p entries s1)
      | skipDir => exact hstep
      | err e => exact hstep

theorem walkList_allowDupes (o : statefulFileWalker) (hAD : o.AllowDupes = true)
    (dirPath : String) (l : FsEntries) (s : WalkState) :
    PAD s (walkList o dirPath l s).1 := by
  cases l with
  | nil => exact PAD_refl s
  | cons e rest =>
      show PAD s (match walkEntry o (joinPath dirPath e.name) e s with
        | (s1, StepRes.err er) => (s1, StepRes.err er)
        | (s1, StepRes.skipDir) =>
            if e.finfo.isDir then walkList o dirPath rest s1
            else (s1, StepRes.skipDir)
        | (s1, StepRes.ok) => walkList o dirPath rest s1).1
      have hstep := walkEntry_allowDupes o hAD (joinPath dirPath e.name) e s
      rcases hW : walkEntry o (joinPath dirPath e.name) e s with ⟨s1, r⟩
      rw [hW] at hstep
      cases r with
      | ok => exact PAD_trans hstep (walkList_allowDupes o hAD dirPath rest s1)
      | skipDir =>
          by_cases hd : e.finfo.isDir = true
          · simp only [hd, if_true]
            exact PAD_trans hstep (walkList_allowDupes o hAD dirPath rest s1)
          · simp only [hd, if_false]
            exact hstep
      | err er => exact hstep
end

theorem search_allowDupes (o : statefulFileWalker) (hAD : o.AllowDupes = true)
    (root : FsEntry) : PAD initState (search o root).1 := by
  unfold search
  have hstep := walkEntry_allowDupes o hAD o.absTargetDirPath root initState
  rcases hW : walkEntry o o.absTargetDirPath root initState with ⟨s1, r⟩
  rw [hW] at hstep
  cases r <;> exact hstep

/-! ## Concrete fixtures used by witnesses and counterexamples -/

/-- A found callback that always succeeds. -/
def cbOkFn : StatefulFileInfo → Option GoError := fun _ => none

/-- An include predicate accepting every file. -/
def incAllFn : String → Bool := fun _ => true

/-- A concrete digest function (content-determined, as any hash is). -/
def hasherTag : String → String := fun c => "h:" ++ c

/-- Walker rooted at `/r`, dedup tracking on. -/
def wUniq : statefulFileWalker :=
  { absTargetDirPath := "/r", Recursive := false, AllowDupes := false,
    hasher := hasherTag, IncludeFileFn := incAllFn, FoundFileFn := cbOkFn }

/-- Walker rooted at `/r`, dedup tracking off (`AllowDupes = true`). -/
def wDup : statefulFileWalker := { wUniq with AllowDupes := true }

/-- Root with `a.txt` and `b.txt` holding identical contents. -/
def tDup : FsEntry :=
  .dir "r" (.cons (.file "a.txt" true (.ok "hello"))
    (.cons (.file "b.txt" true (.ok "hello")) .nil))

/-! ## Claims C4 and C9: `AllowDupes = true` skips hashing and dedup state -/

/-- Claim C4: with `AllowDupes = true`, no file is ever hashed during the
walk (the `hashFile` invocation trace stays empty), and every record passed
to the found callback has `AlreadySeen = false` and an empty `Hash`,
whatever the files' contents are. -/
theorem allowDupes_reports_unseen_and_unhashed (o : statefulFileWalker)
    (hAD : o.AllowDupes = true) (root : FsEntry) :
    (search o root).1.hashedFiles = [] ∧
    ∀ r ∈ (search o root).1.reports, r.AlreadySeen = false ∧ r.Hash = "" := by
  obtain ⟨hm, hh, hd, t, hr, ha⟩ := search_allowDupes o hAD root
  constructor
  · rw [hh]; rfl
  · intro r hrm
    rw [hr] at hrm
    simp [initState] at hrm
    exact ⟨(ha r hrm).1, (ha r hrm).2.1⟩

theorem allowDupes_reports_unseen_and_unhashed_witness :
    wDup.AllowDupes = true ∧
    ((search wDup tDup).1.hashedFiles = [] ∧
      ∀ r ∈ (search wDup tDup).1.reports, r.AlreadySeen = false ∧ r.Hash = "") :=
  ⟨rfl, allowDupes_reports_unseen_and_unhashed wDup rfl tDup⟩

/-- Claim C9: with `AllowDupes = true` the dedup index is never written
(every step of the walk leaves `fileHashesToPrevious` exactly as it was)
and never read (the lookup trace stays empty); after a whole `search` both
are still in their initial empty state. -/
theorem allowDupes_dedup_index_untouched (o : statefulFileWalker)
    (hAD : o.AllowDupes = true) :
    (∀ p e s, ((walkEntry o p e s).1.fileHashesToPrevious = s.fileHashesToPrevious ∧
       (walkEntry o p e s).1.dedupLookups = s.dedupLookups)) ∧
    ∀ root, ((search o root).1.fileHashesToPrevious = [] ∧
      (search o root).1.dedupLookups = []) := by
  constructor
  · intro p e s
    obtain ⟨hm, hh, hd, t, hr, ha⟩ := walkEntry_allowDupes o hAD p e s
    exact ⟨hm, hd⟩
  · intro root
    obtain ⟨hm, hh, hd, t, hr, ha⟩ := search_allowDupes o hAD root
    exact ⟨by rw [hm]; rfl, by rw [hd]; rfl⟩

theorem allowDupes_dedup_index_untouched_witness :
    wDup.AllowDupes = true ∧
    ((search wDup tDup).1.fileHashesToPrevious = [] ∧
      (search wDup tDup).1.dedupLookups = []) :=
  ⟨rfl, (allowDupes_dedup_index_untouched wDup rfl).2 tDup⟩

/-! ## Branch-by-branch characterisation of `fileWalkFunc`

Named state updates for each effect the function performs, and one
equation per reachable branch (under `err = none`, which is all the
driver ever passes). -/

def afterVisit (p : String) (i : FInfo) (s : WalkState) : WalkState :=
  { s with visited := s.visited ++ [(p, i)] }

def afterPred (p : String) (s : WalkState) : WalkState :=
  { s with predCalls := s.predCalls ++ [p] }

def afterHashed (p : String) (s : WalkState) : WalkState :=
  { s with hashedFiles := s.hashedFiles ++ [p] }

def afterLookup (fh : String) (s : WalkState) : WalkState :=
  { s with dedupLookups := s.dedupLookups ++ [fh] }

def afterInsert (o : statefulFileWalker) (p fh : String) (s : WalkState) : WalkState :=
  { s with fileHashesToPrevious :=
      mapInsert s.fileHashesToPrevious fh (trimPrefixGo p o.absTargetDirPath) }

def afterReport (r : StatefulFileInfo) (s : WalkState) : WalkState :=
  { s with reports := s.reports ++ [r] }

/-- The step result produced by the found-callback invocation. -/
def cbRes (o : statefulFileWalker) (r : StatefulFileInfo) : StepRes :=
  match o.FoundFileFn r with
  | some e => StepRes.err e
  | none => StepRes.ok

theorem emitReport_eq (o : statefulFileWalker) (p : String) (i : FInfo)
    (s : WalkState) (b : Bool) (pv fh : String) :
    emitReport o p i s b pv fh =
      (afterReport (mkReport o p i b pv fh) s, cbRes o (mkReport o p i b pv fh)) := by
  have h1 := emitReport_state o p i s b pv fh
  have h2 := emitReport_res o p i s b pv fh
  rcases hE : emitReport o p i s b pv fh with ⟨s', r'⟩
  rw [hE] at h1 h2
  simp only [afterReport, cbRes]
  rw [Prod.ext_iff]
  exact ⟨h1, h2⟩

theorem fileWalkFunc_skip (o : statefulFileWalker) (p : String) (i : FInfo)
    (s : WalkState)
    (h1 : (!o.Recursive && i.isDir && decide (p ≠ o.absTargetDirPath)) = true) :
    fileWalkFunc o p i none s = (afterVisit p i s, StepRes.skipDir) := by
  unfold fileWalkFunc afterVisit
  simp only [h1]
  simp

theorem fileWalkFunc_silent (o : statefulFileWalker) (p : String) (i : FInfo)
    (s : WalkState)
    (h1 : (!o.Recursive && i.isDir && decide (p ≠ o.absTargetDirPath)) = false)
    (h2 : (i.isDir || !i.regular) = true) :
    fileWalkFunc o p i none s = (afterVisit p i s, StepRes.ok) := by
  unfold fileWalkFunc afterVisit
  simp only [h1, h2]
  simp

theorem fileWalkFunc_notIncluded (o : statefulFileWalker) (p : String) (i : FInfo)
    (s : WalkState)
    (h1 : (!o.Recursive && i.isDir && decide (p ≠ o.absTargetDirPath)) = false)
    (h2 : (i.isDir || !i.regular) = false)
    (h3 : o.IncludeFileFn p = false) :
    fileWalkFunc o p i none s = (afterPred p (afterVisit p i s), StepRes.ok) := by
  unfold fileWalkFunc afterVisit afterPred
  simp only [h1, h2, h3]
  simp

theorem fileWalkFunc_dupes (o : statefulFileWalker) (p : String) (i : FInfo)
    (s : WalkState)
    (h1 : (!o.Recursive && i.isDir && decide (p ≠ o.absTargetDirPath)) = false)
    (h2 : (i.isDir || !i.regular) = false)
    (h3 : o.IncludeFileFn p = true)
    (hAD : o.AllowDupes = true) :
    fileWalkFunc o p i none s =
      emitReport o p i (afterPred p (afterVisit p i s)) false "" "" := by
  unfold fileWalkFunc afterVisit afterPred
  simp only [h1, h2, h3, hAD]
  simp

theorem fileWalkFunc_hashErr (o : statefulFileWalker) (p : String) (i : FInfo)
    (s : WalkState) (e : GoError)
    (h1 : (!o.Recursive && i.isDir && decide (p ≠ o.absTargetDirPath)) = false)
    (h2 : (i.isDir || !i.regular) = false)
    (h3 : o.IncludeFileFn p = true)
    (hAD : o.AllowDupes = false)
    (hc : i.content = .error e) :
    fileWalkFunc o p i none s =
      (afterHashed p (afterPred p (afterVisit p i s)),
        StepRes.err (.hashWrap p e)) := by
  unfold fileWalkFunc afterVisit afterPred afterHashed
  simp only [h1, h2, h3, hAD, hc]
  simp [hashFile]

theorem fileWalkFunc_hashOk_seen (o : statefulFileWalker) (p : String) (i : FInfo)
    (s : WalkState) (data pv : String)
    (h1 : (!o.Recursive && i.isDir && decide (p ≠ o.absTargetDirPath)) = false)
    (h2 : (i.isDir || !i.regular) = false)
    (h3 : o.IncludeFileFn p = true)
    (hAD : o.AllowDupes = false)
    (hc : i.content = .ok data)
    (hlk : mapGet s.fileHashesToPrevious (o.hasher data) = (pv, true)) :
    fileWalkFunc o p i none s =
      emitReport o p i
        (afterLookup (o.hasher data) (afterHashed p (afterPred p (afterVisit p i s))))
        true pv (o.hasher data) := by
  unfold fileWalkFunc afterVisit afterPred afterHashed afterLookup
  simp only [h1, h2, h3, hAD, hc]
  simp only [hashFile]
  simp only [hlk]
  simp

theorem fileWalkFunc_hashOk_unseen (o : statefulFileWalker) (p : String) (i : FInfo)
    (s : WalkState) (data pv : String)
    (h1 : (!o.Recursive && i.isDir && decide (p ≠ o.absTargetDirPath)) = false)
    (h2 : (i.isDir || !i.regular) = false)
    (h3 : o.IncludeFileFn p = true)
    (hAD : o.AllowDupes = false)
    (hc : i.content = .ok data)
    (hlk : mapGet s.fileHashesToPrevious (o.hasher data) = (pv, false)) :
    fileWalkFunc o p i none s =
      emitReport o p i
        (afterInsert o p (o.hasher data)
          (afterLookup (o.hasher data) (afterHashed p (afterPred p (afterVisit p i s)))))
        false pv (o.hasher data) := by
  unfold fileWalkFunc afterVisit afterPred afterHashed afterLookup afterInsert
  simp only [h1, h2, h3, hAD, hc]
  simp only [hashFile]
  simp only [hlk]
  simp

/-! ## Claim C8: validation precedes path resolution -/

/-- Claim C8: constructing a walker from a configuration whose include
predicate or found callback is missing fails with the corresponding
validation error, and does so for every possible behaviour of the path
resolution primitive `filepath.Abs` — resolution (and with it any
filesystem access) is never consulted. -/
theorem validate_fails_before_path_resolution (c : FindUniqueFilesConfig)
    (h : c.IncludeFileFn = none ∨ c.FoundFileFn = none) :
    ∃ msg, ∀ absResolve sha,
      newFileWalker c absResolve sha = .error (.validationFail msg) := by
  by_cases hi : c.IncludeFileFn = none
  · refine ⟨"IncludeFileFn cannot be nil", fun a sh => ?_⟩
    unfold newFileWalker FindUniqueFilesConfig.Validate
    simp [hi]
  · rcases h with h | h
    · exact absurd h hi
    · refine ⟨"FoundFileFn cannot be nil", fun a sh => ?_⟩
      unfold newFileWalker FindUniqueFilesConfig.Validate
      simp [hi, h]

/-- A configuration missing its include predicate. -/
def cNoInc : FindUniqueFilesConfig :=
  { TargetDirPath := "r", Recursive := true, AllowDupes := false,
    HasherFn := none, IncludeFileFn := none, FoundFileFn := some cbOkFn }

theorem validate_fails_before_path_resolution_witness :
    (cNoInc.IncludeFileFn = none ∨ cNoInc.FoundFileFn = none) ∧
    ∃ msg, ∀ absResolve sha,
      newFileWalker cNoInc absResolve sha = .error (.validationFail msg) :=
  ⟨Or.inl rfl, validate_fails_before_path_resolution cNoInc (Or.inl rfl)⟩

/-! ## Claim C2: what the dedup index actually stores -/

/-- Claim C2 fails on the code: over root `/r` holding `a.txt` and `b.txt`
with identical contents, the duplicate's `PreviousFilePath` is
`strings.TrimPrefix("/r/a.txt", "/r") = "/a.txt"` — the absolute path with
the root prefix stripped, which retains a leading separator — whereas the
path of `a.txt` relative to the root `/r` is `a.txt`. -/
theorem dedup_index_stores_nonrelative_path :
    (search wUniq tDup).1.reports.map
        (fun r => (r.AlreadySeen, r.PreviousFilePath)) =
      [(false, ""), (true, "/a.txt")] ∧
    mapGet (search wUniq tDup).1.fileHashesToPrevious (hasherTag "hello") =
      ("/a.txt", true) ∧
    trimPrefixGo "/r/a.txt" "/r" = "/a.txt" ∧
    "/a.txt" ≠ "a.txt" := by
  refine ⟨?_, ?_, ?_, ?_⟩ <;> decide

/-! ## Claim C3: which entries reach the include predicate -/

/-- Root with a single non-regular, non-directory entry (e.g. a pipe). -/
def tIrr : FsEntry := .dir "r" (.cons (.file "fifo" false (.ok "x")) .nil)

/-- Claim C3 as stated is false on the code: here the walk visits the
non-directory entry `/r/fifo` (a non-regular file), yet the include
predicate is never invoked — `fileWalkFunc` discards non-regular entries
before consulting `IncludeFileFn`. -/
theorem include_pred_skips_irregular_cex :
    ("/r/fifo", ({ isDir := false, regular := false, content := .ok "x" } : FInfo)) ∈
        (search wUniq tIrr).1.visited ∧
    (search wUniq tIrr).1.predCalls = [] := by
  refine ⟨?_, ?_⟩ <;> decide

theorem bool_false_of_not_true {b : Bool} (h : ¬ b = true) : b = false := by
  cases b
  · rfl
  · exact absurd rfl h

/-- Complete case analysis of one `fileWalkFunc` call (with the nil error
the driver always passes): exactly one of the seven branches of the Go
function applies, and in each case the resulting state and step result are
given by the branch equations above. -/
theorem fileWalkFunc_classify (o : statefulFileWalker) (p : String) (i : FInfo)
    (s : WalkState) :
    (o.Recursive = false ∧ i.isDir = true ∧ p ≠ o.absTargetDirPath ∧
      fileWalkFunc o p i none s = (afterVisit p i s, StepRes.skipDir))
  ∨ ((i.isDir = true ∨ i.regular = false) ∧
      fileWalkFunc o p i none s = (afterVisit p i s, StepRes.ok))
  ∨ (i.isDir = false ∧ i.regular = true ∧ o.IncludeFileFn p = false ∧
      fileWalkFunc o p i none s = (afterPred p (afterVisit p i s), StepRes.ok))
  ∨ (i.isDir = false ∧ i.regular = true ∧ o.IncludeFileFn p = true ∧
      o.AllowDupes = true ∧
      fileWalkFunc o p i none s =
        emitReport o p i (afterPred p (afterVisit p i s)) false "" "")
  ∨ (∃ e, i.isDir = false ∧ i.regular = true ∧ o.IncludeFileFn p = true ∧
      o.AllowDupes = false ∧ i.content = .error e ∧
      fileWalkFunc o p i none s =
        (afterHashed p (afterPred p (afterVisit p i s)),
          StepRes.err (.hashWrap p e)))
  ∨ (∃ data pv, i.isDir = false ∧ i.regular = true ∧ o.IncludeFileFn p = true ∧
      o.AllowDupes = false ∧ i.content = .ok data ∧
      mapGet s.fileHashesToPrevious (o.hasher data) = (pv, true) ∧
      fileWalkFunc o p i none s =
        emitReport o p i
          (afterLookup (o.hasher data)
            (afterHashed p (afterPred p (afterVisit p i s))))
          true pv (o.hasher data))
  ∨ (∃ data pv, i.isDir = false ∧ i.regular = true ∧ o.IncludeFileFn p = true ∧
      o.AllowDupes = false ∧ i.content = .ok data ∧
      mapGet s.fileHashesToPrevious (o.hasher data) = (pv, false) ∧
      fileWalkFunc o p i none s =
        emitReport o p i
          (afterInsert o p (o.hasher data)
            (afterLookup (o.hasher data)
              (afterHashed p (afterPred p (afterVisit p i s)))))
          false pv (o.hasher data)) := by
  by_cases h1 : (!o.Recursive && i.isDir && decide (p ≠ o.absTargetDirPath)) = true
  · left
    have h1' := h1
    simp only [Bool.and_eq_true, Bool.not_eq_true', decide_eq_true_eq] at h1'
    exact ⟨h1'.1.1, h1'.1.2, h1'.2, fileWalkFunc_skip o p i s h1⟩
  · have h1f := bool_false_of_not_true h1
    by_cases h2 : (i.isDir || !i.regular) = true
    · right; left
      have h2' := h2
      simp only [Bool.or_eq_true, Bool.not_eq_true'] at h2'
      refine ⟨?_, fileWalkFunc_silent o p i s h1f h2⟩
      rcases h2' with h | h
      · exact Or.inl h
      · exact Or.inr h
    · have h2f := bool_false_of_not_true h2
      have h2' := h2f
      simp only [Bool.or_eq_false_iff, Bool.not_eq_false'] at h2'
      obtain ⟨hdir, hreg⟩ := h2'
      by_cases h3 : o.IncludeFileFn p = true
      · cases hAD : o.AllowDupes with
        | true =>
            right; right; right; left
            exact ⟨hdir, hreg, h3, rfl, fileWalkFunc_dupes o p i s h1f h2f h3 hAD⟩
        | false =>
            cases hc : i.content with
            | error e =>
                right; right; right; right; left
                exact ⟨e, hdir, hreg, h3, rfl, rfl,
                  fileWalkFunc_hashErr o p i s e h1f h2f h3 hAD hc⟩
            | ok data =>
                rcases hlk : mapGet s.fileHashesToPrevious (o.hasher data) with ⟨pv, b⟩
                cases b with
                | true =>
                    right; right; right; right; right; left
                    exact ⟨data, pv, hdir, hreg, h3, rfl, rfl, hlk,
                      fileWalkFunc_hashOk_seen o p i s data pv h1f h2f h3 hAD hc hlk⟩
                | false =>
                    right; right; right; right; right; right
                    exact ⟨data, pv, hdir, hreg, h3, rfl, rfl, hlk,
                      fileWalkFunc_hashOk_unseen o p i s data pv h1f h2f h3 hAD hc hlk⟩
      · have h3f := bool_false_of_not_true h3
        right; right; left
        exact ⟨hdir, hreg, h3f, fileWalkFunc_notIncluded o p i s h1f h2f h3f⟩

/-! ## Which visited entries reach the include predicate -/

/-- Relates a state to a later state of the same walk: both traces only
grow, every new predicate invocation is on a visited regular
non-directory entry, and every visited regular non-directory entry got a
predicate invocation. -/
def PPred (s s' : WalkState) : Prop :=
  (∃ t, s'.visited = s.visited ++ t) ∧
  (∃ t, s'.predCalls = s.predCalls ++ t) ∧
  (∀ q ∈ s'.predCalls, q ∈ s.predCalls ∨
     ∃ i, (q, i) ∈ s'.visited ∧ i.isDir = false ∧ i.regular = true) ∧
  (∀ q i, (q, i) ∈ s'.visited →
     (q, i) ∈ s.visited ∨ (i.isDir = false → i.regular = true → q ∈ s'.predCalls))

theorem PPred_refl (s : WalkState) : PPred s s :=
  ⟨⟨[], by simp⟩, ⟨[], by simp⟩, fun q hq => Or.inl hq, fun q i hq => Or.inl hq⟩

theorem PPred_trans {s1 s2 s3 : WalkState} (h12 : PPred s1 s2) (h23 : PPred s2 s3) :
    PPred s1 s3 := by
  obtain ⟨⟨tv12, hv12⟩, ⟨tp12, hp12⟩, hfwd12, hbwd12⟩ := h12
  obtain ⟨⟨tv23, hv23⟩, ⟨tp23, hp23⟩, hfwd23, hbwd23⟩ := h23
  have hvmono : ∀ x, x ∈ s2.visited → x ∈ s3.visited := by
    intro x hx; rw [hv23]; exact List.mem_append_left _ hx
  have hpmono : ∀ x, x ∈ s2.predCalls → x ∈ s3.predCalls := by
    intro x hx; rw [hp23]; exact List.mem_append_left _ hx
  refine ⟨⟨tv12 ++ tv23, by rw [hv23, hv12, List.append_assoc]⟩,
    ⟨tp12 ++ tp23, by rw [hp23, hp12, List.append_assoc]⟩, ?_, ?_⟩
  · intro q hq
    rcases hfwd23 q hq with h | ⟨i, hvi, hd, hr⟩
    · rcases hfwd12 q h with h' | ⟨i, hvi, hd, hr⟩
      · exact Or.inl h'
      · exact Or.inr ⟨i, hvmono _ hvi, hd, hr⟩
    · exact Or.inr ⟨i, hvi, hd, hr⟩
  · intro q i hq
    rcases hbwd23 q i hq with h | h
    · rcases hbwd12 q i h with h' | h'
      · exact Or.inl h'
      · exact Or.inr (fun hd hr => hpmono _ (h' hd hr))
    · exact Or.inr h

theorem PPred_visit_only {s s' : WalkState} (p : String) (i : FInfo)
    (hvis : s'.visited = s.visited ++ [(p, i)])
    (hpred : s'.predCalls = s.predCalls)
    (hskip : i.isDir = true ∨ i.regular = false) : PPred s s' := by
  refine ⟨⟨[(p, i)], hvis⟩, ⟨[], by simp [hpred]⟩, ?_, ?_⟩
  · intro q hq
    rw [hpred] at hq
    exact Or.inl hq
  · intro q i' hq
    rw [hvis] at hq
    rcases List.mem_append.mp hq with h | h
    · exact Or.inl h
    · simp at h
      obtain ⟨hq1, hq2⟩ := h
      subst hq1; subst hq2
      refine Or.inr (fun hd hr => ?_)
      rcases hskip with hh | hh
      · rw [hd] at hh; cases hh
      · rw [hr] at hh; cases hh

theorem PPred_pred_called {s s' : WalkState} (p : String) (i : FInfo)
    (hvis : s'.visited = s.visited ++ [(p, i)])
    (hpred : s'.predCalls = s.predCalls ++ [p])
    (hd : i.isDir = false) (hr : i.regular = true) : PPred s s' := by
  refine ⟨⟨[(p, i)], hvis⟩, ⟨[p], hpred⟩, ?_, ?_⟩
  · intro q hq
    rw [hpred] at hq
    rcases List.mem_append.mp hq with h | h
    · exact Or.inl h
    · simp at h
      subst h
      exact Or.inr ⟨i, by rw [hvis]; simp, hd, hr⟩
  · intro q i' hq
    rw [hvis] at hq
    rcases List.mem_append.mp hq with h | h
    · exact Or.inl h
    · simp at h
      obtain ⟨h1, h2⟩ := h
      subst h1; subst h2
      exact Or.inr (fun _ _ => by rw [hpred]; simp)

theorem fileWalkFunc_pred_step (o : statefulFileWalker) (p : String) (i : FInfo)
    (s : WalkState) : PPred s (fileWalkFunc o p i none s).1 := by
  rcases fileWalkFunc_classify o p i s with
    ⟨hR, hD, hne, heq⟩ | ⟨hsk, heq⟩ | ⟨hd, hr, h3, heq⟩ | ⟨hd, hr, h3, hAD, heq⟩ |
    ⟨e, hd, hr, h3, hAD, hc, heq⟩ | ⟨data, pv, hd, hr, h3, hAD, hc, hlk, heq⟩ |
    ⟨data, pv, hd, hr, h3, hAD, hc, hlk, heq⟩
  · rw [heq]
    exact PPred_visit_only p i (by simp [afterVisit]) (by simp [afterVisit]) (Or.inl hD)
  · rw [heq]
    exact PPred_visit_only p i (by simp [afterVisit]) (by simp [afterVisit]) hsk
  · rw [heq]
    exact PPred_pred_called p i (by simp [afterVisit, afterPred])
      (by simp [afterVisit, afterPred]) hd hr
  · rw [heq, emitReport_eq]
    exact PPred_pred_called p i
      (by simp [afterVisit, afterPred, afterReport, afterHashed, afterLookup, afterInsert])
      (by simp [afterVisit, afterPred, afterReport, afterHashed, afterLookup, afterInsert]) hd hr
  · rw [heq]
    exact PPred_pred_called p i
      (by simp [afterVisit, afterPred, afterHashed])
      (by simp [afterVisit, afterPred, afterHashed]) hd hr
  · rw [heq, emitReport_eq]
    exact PPred_pred_called p i
      (by simp [afterVisit, afterPred, afterReport, afterHashed, afterLookup, afterInsert])
      (by simp [afterVisit, afterPred, afterReport, afterHashed, afterLookup, afterInsert]) hd hr
  · rw [heq, emitReport_eq]
    exact PPred_pred_called p i
      (by simp [afterVisit, afterPred, afterReport, afterHashed, afterLookup, afterInsert])
      (by simp [afterVisit, afterPred, afterReport, afterHashed, afterLookup, afterInsert]) hd hr

mutual
theorem walkEntry_pred (o : statefulFileWalker) (p : String) (e : FsEntry)
    (s : WalkState) : PPred s (walkEntry o p e s).1 := by
  cases e with
  | file n reg content =>
      exact fileWalkFunc_pred_step o p _ s
  | dir n entries =>
      show PPred s (match fileWalkFunc o p { isDir := true, regular := false, content := .ok "" } none s with
        | (s1, StepRes.ok) => walkList o p entries s1
        | (s1, StepRes.skipDir) => (s1, StepRes.skipDir)
        | (s1, StepRes.err e) => (s1, StepRes.err e)).1
      have hstep := fileWalkFunc_pred_step o p { isDir := true, regular := false, content := .ok "" } s
      rcases hF : fileWalkFunc o p { isDir := true, regular := false, content := .ok "" } none s with ⟨s1, r⟩
      rw [hF] at hstep
      cases r with
      | ok => exact PPred_trans hstep (walkList_pred o p entries s1)
      | skipDir => exact hstep
      | err e => exact hstep

theorem walkList_pred (o : statefulFileWalker) (dirPath : String) (l : FsEntries)
    (s : WalkState) : PPred s (walkList o dirPath l s).1 := by
  cases l with
  | nil => exact PPred_refl s
  | cons e rest =>
      show PPred s (match walkEntry o (joinPath dirPath e.name) e s with
        | (s1, StepRes.err er) => (s1, StepRes.err er)
        | (s1, StepRes.skipDir) =>
            if e.finfo.isDir then walkList o dirPath rest s1
            else (s1, StepRes.skipDir)
        | (s1, StepRes.ok) => walkList o dirPath rest s1).1
      have hstep := walkEntry_pred o (joinPath dirPath e.name) e s
      rcases hW : walkEntry o (joinPath dirPath e.name) e s with ⟨s1, r⟩
      rw [hW] at hstep
      cases r with
      | ok => exact PPred_trans hstep (walkList_pred o dirPath rest s1)
      | skipDir =>
          by_cases hdd : e.finfo.isDir = true
          · simp only [hdd, if_true]
            exact PPred_trans hstep (walkList_pred o dirPath rest s1)
          · simp only [hdd, if_false]
            exact hstep
      | err er => exact hstep
end

theorem search_pred (o : statefulFileWalker) (root : FsEntry) :
    PPred initState (search o root).1 := by
  unfold search
  have hstep := walkEntry_pred o o.absTargetDirPath root initState
  rcases hW : walkEntry o o.absTargetDirPath root initState with ⟨s1, r⟩
  rw [hW] at hstep
  cases r <;> exact hstep

/-- Claim C3, amended: the include predicate is invoked (with the entry's
path as passed by the driver) exactly for the visited non-directory
entries that are regular files; visited non-regular entries (symbolic
links, devices, named pipes) are skipped without consulting the
predicate. -/
theorem include_called_exactly_for_regular_files (o : statefulFileWalker)
    (root : FsEntry) :
    (∀ q i, (q, i) ∈ (search o root).1.visited → i.isDir = false →
        i.regular = true → q ∈ (search o root).1.predCalls) ∧
    (∀ q ∈ (search o root).1.predCalls,
        ∃ i, (q, i) ∈ (search o root).1.visited ∧ i.isDir = false ∧
          i.regular = true) := by
  obtain ⟨hv, hp, hfwd, hbwd⟩ := search_pred o root
  constructor
  · intro q i hq hd hr
    rcases hbwd q i hq with h | h
    · simp [initState] at h
    · exact h hd hr
  · intro q hq
    rcases hfwd q hq with h | h
    · simp [initState] at h
    · exact h

theorem include_called_exactly_for_regular_files_witness :
    ("/r/a.txt" : String) ∈ (search wUniq tDup).1.predCalls :=
  (include_called_exactly_for_regular_files wUniq tDup).1 "/r/a.txt"
    { isDir := false, regular := true, content := .ok "hello" } (by decide) rfl rfl

/-! ## Claim C5: the non-recursive walk prunes every subdirectory -/

theorem joinPath_ne (d n : String) : joinPath d n ≠ d := by
  intro h
  have hlen := congrArg String.length h
  simp [joinPath, String.length_append] at hlen
  have hone : ("/" : String).length = 1 := rfl
  omega

/-- What one `fileWalkFunc` call can add to the predicate and report
traces: only the entry's own path. -/
theorem fileWalkFunc_delta (o : statefulFileWalker) (p : String) (i : FInfo)
    (s : WalkState) :
    (∀ q ∈ (fileWalkFunc o p i none s).1.predCalls, q ∈ s.predCalls ∨ q = p) ∧
    (∀ r ∈ (fileWalkFunc o p i none s).1.reports,
        r ∈ s.reports ∨ r.FilePath = p) := by
  rcases fileWalkFunc_classify o p i s with
    ⟨hR, hD, hne, heq⟩ | ⟨hsk, heq⟩ | ⟨hd, hr, h3, heq⟩ | ⟨hd, hr, h3, hAD, heq⟩ |
    ⟨e, hd, hr, h3, hAD, hc, heq⟩ | ⟨data, pv, hd, hr, h3, hAD, hc, hlk, heq⟩ |
    ⟨data, pv, hd, hr, h3, hAD, hc, hlk, heq⟩ <;>
  rw [heq] <;>
  first
    | (constructor <;>
        · intro x hx
          simp [afterVisit, afterPred, afterHashed] at hx
          first
            | exact Or.inl hx
            | (rcases hx with hx | hx
               · exact Or.inl hx
               · subst hx; exact Or.inr rfl))
    | (rw [emitReport_eq]
       constructor <;>
        · intro x hx
          simp [afterVisit, afterPred, afterHashed, afterLookup, afterInsert,
            afterReport, mkReport] at hx
          first
            | exact Or.inl hx
            | (rcases hx with hx | hx
               · exact Or.inl hx
               · subst hx; exact Or.inr rfl))

theorem walkList_nil (o : statefulFileWalker) (dp : String) (s : WalkState) :
    walkList o dp .nil s = (s, StepRes.ok) := rfl

theorem walkList_cons (o : statefulFileWalker) (dp : String) (e : FsEntry)
    (rest : FsEntries) (s : WalkState) :
    walkList o dp (.cons e rest) s =
      match walkEntry o (joinPath dp e.name) e s with
      | (s1, StepRes.err er) => (s1, StepRes.err er)
      | (s1, StepRes.skipDir) =>
          if e.finfo.isDir then walkList o dp rest s1 else (s1, StepRes.skipDir)
      | (s1, StepRes.ok) => walkList o dp rest s1 := rfl

theorem walkEntry_file (o : statefulFileWalker) (p n : String) (reg : Bool)
    (content : Except GoError String) (s : WalkState) :
    walkEntry o p (.file n reg content) s =
      fileWalkFunc o p { isDir := false, regular := reg, content := content } none s := rfl

theorem walkEntry_dir (o : statefulFileWalker) (p n : String) (entries : FsEntries)
    (s : WalkState) :
    walkEntry o p (.dir n entries) s =
      match fileWalkFunc o p { isDir := true, regular := false, content := .ok "" } none s with
      | (s1, StepRes.ok) => walkList o p entries s1
      | (s1, StepRes.skipDir) => (s1, StepRes.skipDir)
      | (s1, StepRes.err e) => (s1, StepRes.err e) := rfl

theorem search_state_eq (o : statefulFileWalker) (root : FsEntry) :
    (search o root).1 = (walkEntry o o.absTargetDirPath root initState).1 := by
  unfold search
  rcases hW : walkEntry o o.absTargetDirPath root initState with ⟨s, r⟩
  cases r <;> simp

theorem search_err_eq (o : statefulFileWalker) (root : FsEntry) :
    (search o root).2 =
      (match (walkEntry o o.absTargetDirPath root initState).2 with
       | StepRes.err e => some e
       | _ => none) := by
  unfold search
  rcases hW : walkEntry o o.absTargetDirPath root initState with ⟨s, r⟩
  cases r <;> simp

/-- With the recursive flag off, a sibling scan at the search root only
ever invokes the predicate and the callback on the root's own non-directory
children: every directory child is pruned at its own visit. -/
theorem walkList_nonrec (o : statefulFileWalker) (hR : o.Recursive = false)
    (l : FsEntries) (s : WalkState) :
    (∀ q ∈ (walkList o o.absTargetDirPath l s).1.predCalls,
       q ∈ s.predCalls ∨ ∃ e', FsEntries.Mem e' l ∧ e'.finfo.isDir = false ∧
         q = joinPath o.absTargetDirPath e'.name) ∧
    (∀ r ∈ (walkList o o.absTargetDirPath l s).1.reports,
       r ∈ s.reports ∨ ∃ e', FsEntries.Mem e' l ∧ e'.finfo.isDir = false ∧
         r.FilePath = joinPath o.absTargetDirPath e'.name) := by
  cases l with
  | nil => exact ⟨fun q hq => Or.inl hq, fun r hr => Or.inl hr⟩
  | cons e rest =>
      rw [walkList_cons]
      cases e with
      | dir n entries =>
          rw [walkEntry_dir,
            fileWalkFunc_skip o (joinPath o.absTargetDirPath (FsEntry.dir n entries).name)
              { isDir := true, regular := false, content := Except.ok "" } s
              (by simp [hR, FsEntry.name, joinPath_ne])]
          simp only [FsEntry.finfo, if_true]
          have IH := walkList_nonrec o hR rest
            (afterVisit (joinPath o.absTargetDirPath (FsEntry.dir n entries).name)
              { isDir := true, regular := false, content := Except.ok "" } s)
          constructor
          · intro q hq
            rcases IH.1 q hq with h | ⟨e', hm, hdd, hqq⟩
            · simp [afterVisit] at h
              exact Or.inl h
            · exact Or.inr ⟨e', Or.inr hm, hdd, hqq⟩
          · intro r hr
            rcases IH.2 r hr with h | ⟨e', hm, hdd, hqq⟩
            · simp [afterVisit] at h
              exact Or.inl h
            · exact Or.inr ⟨e', Or.inr hm, hdd, hqq⟩
      | file n reg content =>
          rw [walkEntry_file]
          have hdelta := fileWalkFunc_delta o
            (joinPath o.absTargetDirPath (FsEntry.file n reg content).name)
            { isDir := false, regular := reg, content := content } s
          rcases hF : fileWalkFunc o
              (joinPath o.absTargetDirPath (FsEntry.file n reg content).name)
              { isDir := false, regular := reg, content := content } none s with ⟨s1, r⟩
          rw [hF] at hdelta
          have hfin : ∀ sf : WalkState,
              (∀ q ∈ sf.predCalls, q ∈ s1.predCalls ∨
                ∃ e', FsEntries.Mem e' rest ∧ e'.finfo.isDir = false ∧
                  q = joinPath o.absTargetDirPath e'.name) →
              (∀ r' ∈ sf.reports, r' ∈ s1.reports ∨
                ∃ e', FsEntries.Mem e' rest ∧ e'.finfo.isDir = false ∧
                  r'.FilePath = joinPath o.absTargetDirPath e'.name) →
              (∀ q ∈ sf.predCalls, q ∈ s.predCalls ∨
                ∃ e', FsEntries.Mem e' (.cons (.file n reg content) rest) ∧
                  e'.finfo.isDir = false ∧ q = joinPath o.absTargetDirPath e'.name) ∧
              (∀ r' ∈ sf.reports, r' ∈ s.reports ∨
                ∃ e', FsEntries.Mem e' (.cons (.file n reg content) rest) ∧
                  e'.finfo.isDir = false ∧
                  r'.FilePath = joinPath o.absTargetDirPath e'.name) := by
            intro sf hq1 hr1
            constructor
            · intro q hq
              rcases hq1 q hq with h | ⟨e', hm, hdd, hqq⟩
              · rcases hdelta.1 q h with h' | h'
                · exact Or.inl h'
                · exact Or.inr ⟨.file n reg content, Or.inl rfl, rfl, h'⟩
              · exact Or.inr ⟨e', Or.inr hm, hdd, hqq⟩
            · intro r' hr'
              rcases hr1 r' hr' with h | ⟨e', hm, hdd, hqq⟩
              · rcases hdelta.2 r' h with h' | h'
                · exact Or.inl h'
                · exact Or.inr ⟨.file n reg content, Or.inl rfl, rfl, h'⟩
              · exact Or.inr ⟨e', Or.inr hm, hdd, hqq⟩
          cases r with
          | ok =>
              have IH := walkList_nonrec o hR rest s1
              exact hfin _ IH.1 IH.2
          | skipDir =>
              simp only [FsEntry.finfo]
              exact hfin s1 (fun q hq => Or.inl hq) (fun r' hr' => Or.inl hr')
          | err er =>
              exact hfin s1 (fun q hq => Or.inl hq) (fun r' hr' => Or.inl hr')

/-- Claim C5: with the recursive flag off, searching a directory root
presents only the root's own non-directory children to the include
predicate and the found callback; no file inside any subdirectory is ever
presented to either. -/
theorem nonrecursive_prunes_subdirectories (o : statefulFileWalker)
    (hR : o.Recursive = false) (nm : String) (l : FsEntries) :
    (∀ q ∈ (search o (.dir nm l)).1.predCalls,
       ∃ e', FsEntries.Mem e' l ∧ e'.finfo.isDir = false ∧
         q = joinPath o.absTargetDirPath e'.name) ∧
    (∀ r ∈ (search o (.dir nm l)).1.reports,
       ∃ e', FsEntries.Mem e' l ∧ e'.finfo.isDir = false ∧
         r.FilePath = joinPath o.absTargetDirPath e'.name) := by
  rw [search_state_eq, walkEntry_dir,
    fileWalkFunc_silent o o.absTargetDirPath
      { isDir := true, regular := false, content := Except.ok "" } initState
      (by simp) (by simp)]
  have H := walkList_nonrec o hR l
    (afterVisit o.absTargetDirPath
      { isDir := true, regular := false, content := Except.ok "" } initState)
  constructor
  · intro q hq
    rcases H.1 q hq with h | h
    · simp [afterVisit, initState] at h
    · exact h
  · intro r hr
    rcases H.2 r hr with h | h
    · simp [afterVisit, initState] at h
    · exact h

/-- Entries for the witness: a subdirectory holding `c.txt`, next to a
top-level file `a.txt`. -/
def entsSub : FsEntries :=
  .cons (.dir "sub" (.cons (.file "c.txt" true (.ok "x")) .nil))
    (.cons (.file "a.txt" true (.ok "y")) .nil)

theorem nonrecursive_prunes_subdirectories_witness :
    wUniq.Recursive = false ∧
    ((∀ q ∈ (search wUniq (.dir "r" entsSub)).1.predCalls,
       ∃ e', FsEntries.Mem e' entsSub ∧ e'.finfo.isDir = false ∧
         q = joinPath wUniq.absTargetDirPath e'.name) ∧
     (∀ r ∈ (search wUniq (.dir "r" entsSub)).1.reports,
       ∃ e', FsEntries.Mem e' entsSub ∧ e'.finfo.isDir = false ∧
         r.FilePath = joinPath wUniq.absTargetDirPath e'.name)) :=
  ⟨rfl, nonrecursive_prunes_subdirectories wUniq rfl "r" entsSub⟩

/-! ## Claim C6: a callback failure aborts the walk immediately -/

theorem mem_of_getLast?_eq {α : Type} {l : List α} {a : α}
    (h : l.getLast? = some a) : a ∈ l := by
  have hsplit := List.dropLast_append_getLast? a (by rw [h]; rfl)
  rw [← hsplit]
  simp

theorem eq_nil_of_getLast?_eq_none {α : Type} {l : List α}
    (h : l.getLast? = none) : l = [] := by
  cases l with
  | nil => rfl
  | cons a t => simp at h

/-- Callback-failure invariant for a sub-walk from `s` to `(s', res)`:
reports only grow; all new reports except possibly the final one were
accepted by the callback; and if the callback failed on the final new
report then the sub-walk's result is exactly that failure and the walk
stopped at that file (it is the most recently visited entry). -/
def CbInv (o : statefulFileWalker) (s s' : WalkState) (res : StepRes) : Prop :=
  ∃ t, s'.reports = s.reports ++ t ∧
    (∀ x ∈ t.dropLast, o.FoundFileFn x = none) ∧
    (∀ last e, t.getLast? = some last → o.FoundFileFn last = some e →
       res = StepRes.err e ∧
       s'.visited.getLast?.map Prod.fst = some last.FilePath)

theorem CbInv_ok_all_none {o : statefulFileWalker} {s s' : WalkState}
    {res : StepRes} (h : CbInv o s s' res)
    (hres : ∀ e, res ≠ StepRes.err e) :
    ∃ t, s'.reports = s.reports ++ t ∧ ∀ x ∈ t, o.FoundFileFn x = none := by
  obtain ⟨t, ht, hdrop, hlast⟩ := h
  refine ⟨t, ht, ?_⟩
  intro x hx
  cases hgl : t.getLast? with
  | none =>
      rw [eq_nil_of_getLast?_eq_none hgl] at hx
      simp at hx
  | some last =>
      have hsplit := List.dropLast_append_getLast? last (by rw [hgl]; rfl)
      rw [← hsplit] at hx
      rcases List.mem_append.mp hx with h' | h'
      · exact hdrop x h'
      · simp at h'
        subst h'
        cases hcb : o.FoundFileFn x with
        | none => rfl
        | some e => exact absurd (hlast x e hgl hcb).1 (hres e)

theorem CbInv_seq {o : statefulFileWalker} {s s1 s2 : WalkState}
    {r1 r2 : StepRes} (h1 : CbInv o s s1 r1) (hr1 : ∀ e, r1 ≠ StepRes.err e)
    (h2 : CbInv o s1 s2 r2) : CbInv o s s2 r2 := by
  obtain ⟨t1, ht1, hall⟩ := CbInv_ok_all_none h1 hr1
  obtain ⟨t2, ht2, hdrop2, hlast2⟩ := h2
  refine ⟨t1 ++ t2, by rw [ht2, ht1, List.append_assoc], ?_, ?_⟩
  · intro x hx
    cases t2 with
    | nil =>
        rw [List.append_nil] at hx
        exact hall x (List.dropLast_subset t1 hx)
    | cons b l =>
        rw [List.dropLast_append_cons] at hx
        rcases List.mem_append.mp hx with h' | h'
        · exact hall x h'
        · exact hdrop2 x h'
  · intro last e hgl hcb
    cases t2 with
    | nil =>
        rw [List.append_nil] at hgl
        have hmem := mem_of_getLast?_eq hgl
        rw [hall last hmem] at hcb
        cases hcb
    | cons b l =>
        rw [List.getLast?_append_of_ne_nil t1 (by simp)] at hgl
        exact hlast2 last e hgl hcb

theorem fileWalkFunc_cb_step (o : statefulFileWalker) (p : String) (i : FInfo)
    (s : WalkState) :
    CbInv o s (fileWalkFunc o p i none s).1 (fileWalkFunc o p i none s).2 := by
  have hnone : ∀ (s' : WalkState) (res : StepRes),
      s'.reports = s.reports → CbInv o s s' res := by
    intro s' res hs'
    exact ⟨[], by simp [hs'], by simp, by simp⟩
  have hrep : ∀ (sx : WalkState) (b : Bool) (pv fh : String),
      sx.reports = s.reports → sx.visited = s.visited ++ [(p, i)] →
      CbInv o s (afterReport (mkReport o p i b pv fh) sx)
        (cbRes o (mkReport o p i b pv fh)) := by
    intro sx b pv fh hr hv
    refine ⟨[mkReport o p i b pv fh], by simp [afterReport, hr], by simp, ?_⟩
    intro last e hgl hcb
    simp at hgl
    subst hgl
    constructor
    · rw [cbRes, hcb]
    · simp [afterReport, hv, mkReport]
  rcases fileWalkFunc_classify o p i s with
    ⟨hR, hD, hne, heq⟩ | ⟨hsk, heq⟩ | ⟨hd, hr, h3, heq⟩ | ⟨hd, hr, h3, hAD, heq⟩ |
    ⟨e, hd, hr, h3, hAD, hc, heq⟩ | ⟨data, pv, hd, hr, h3, hAD, hc, hlk, heq⟩ |
    ⟨data, pv, hd, hr, h3, hAD, hc, hlk, heq⟩
  · rw [heq]; exact hnone (afterVisit p i s) _ (by simp [afterVisit])
  · rw [heq]; exact hnone (afterVisit p i s) _ (by simp [afterVisit])
  · rw [heq]; exact hnone (afterPred p (afterVisit p i s)) _ (by simp [afterVisit, afterPred])
  · rw [heq, emitReport_eq]
    exact hrep (afterPred p (afterVisit p i s)) false "" ""
      (by simp [afterVisit, afterPred])
      (by simp [afterVisit, afterPred])
  · rw [heq]
    exact hnone (afterHashed p (afterPred p (afterVisit p i s))) _
      (by simp [afterVisit, afterPred, afterHashed])
  · rw [heq, emitReport_eq]
    exact hrep (afterLookup (o.hasher data) (afterHashed p (afterPred p (afterVisit p i s))))
      true pv (o.hasher data)
      (by simp [afterVisit, afterPred, afterHashed, afterLookup])
      (by simp [afterVisit, afterPred, afterHashed, afterLookup])
  · rw [heq, emitReport_eq]
    exact hrep (afterInsert o p (o.hasher data)
        (afterLookup (o.hasher data) (afterHashed p (afterPred p (afterVisit p i s)))))
      false pv (o.hasher data)
      (by simp [afterVisit, afterPred, afterHashed, afterLookup, afterInsert])
      (by simp [afterVisit, afterPred, afterHashed, afterLookup, afterInsert])

mutual
theorem walkEntry_cb (o : statefulFileWalker) (p : String) (e : FsEntry)
    (s : WalkState) : CbInv o s (walkEntry o p e s).1 (walkEntry o p e s).2 := by
  cases e with
  | file n reg content =>
      rw [walkEntry_file]
      exact fileWalkFunc_cb_step o p _ s
  | dir n entries =>
      rw [walkEntry_dir]
      have hstep := fileWalkFunc_cb_step o p { isDir := true, regular := false, content := .ok "" } s
      rcases hF : fileWalkFunc o p { isDir := true, regular := false, content := .ok "" } none s with ⟨s1, r⟩
      rw [hF] at hstep
      cases r with
      | ok =>
          exact CbInv_seq hstep (fun e h => StepRes.noConfusion h)
            (walkList_cb o p entries s1)
      | skipDir => exact hstep
      | err e => exact hstep

theorem walkList_cb (o : statefulFileWalker) (dirPath : String) (l : FsEntries)
    (s : WalkState) :
    CbInv o s (walkList o dirPath l s).1 (walkList o dirPath l s).2 := by
  cases l with
  | nil =>
      rw [walkList_nil]
      exact ⟨[], by simp, by simp, by simp⟩
  | cons e rest =>
      rw [walkList_cons]
      have hstep := walkEntry_cb o (joinPath dirPath e.name) e s
      rcases hW : walkEntry o (joinPath dirPath e.name) e s with ⟨s1, r⟩
      rw [hW] at hstep
      cases r with
      | ok =>
          exact CbInv_seq hstep (fun e' h => StepRes.noConfusion h)
            (walkList_cb o dirPath rest s1)
      | skipDir =>
          by_cases hdd : e.finfo.isDir = true
          · simp only [hdd, if_true]
            exact CbInv_seq hstep (fun e' h => StepRes.noConfusion h)
              (walkList_cb o dirPath rest s1)
          · simp only [hdd, if_false]
            exact hstep
      | err er => exact hstep
end

/-- Claim C6: if the found callback returns a failure for some reported
file, that file is the last file reported and the last entry visited —
nothing further is processed — and `search` returns exactly that failure. -/
theorem callback_failure_aborts_search (o : statefulFileWalker) (root : FsEntry) :
    ∀ (j : Nat) (r : StatefulFileInfo) (e : GoError),
      (search o root).1.reports[j]? = some r →
      o.FoundFileFn r = some e →
      j + 1 = (search o root).1.reports.length ∧
      (search o root).2 = some e ∧
      (search o root).1.visited.getLast?.map Prod.fst = some r.FilePath := by
  intro j r e hjr hcb
  have hCb := walkEntry_cb o o.absTargetDirPath root initState
  obtain ⟨t, ht, hdrop, hlast⟩ := hCb
  have hrep : (search o root).1.reports = t := by
    rw [search_state_eq, ht]
    simp [initState]
  rw [hrep] at hjr
  have hlen : j < t.length := by
    by_contra hge
    rw [List.getElem?_eq_none (by omega)] at hjr
    cases hjr
  have hjr' : t[j] = r := by
    rw [List.getElem?_eq_getElem hlen] at hjr
    exact Option.some.inj hjr
  have hjlast : j + 1 = t.length := by
    by_contra hne
    have hjlt : j < t.length - 1 := by omega
    have hdl : j < t.dropLast.length := by
      rw [List.length_dropLast]
      exact hjlt
    have hgd : t.dropLast[j] = r := by
      rw [List.getElem_dropLast t j hdl]
      exact hjr'
    have hmem : r ∈ t.dropLast := by
      rw [← hgd]
      exact List.getElem_mem hdl
    rw [hdrop r hmem] at hcb
    cases hcb
  have hgl : t.getLast? = some r := by
    rw [List.getLast?_eq_getElem? t]
    have hj1 : t.length - 1 = j := by omega
    rw [hj1, List.getElem?_eq_getElem hlen, hjr']
  have hmain := hlast r e hgl hcb
  refine ⟨by rw [hrep]; exact hjlast, ?_, ?_⟩
  · rw [search_err_eq, hmain.1]
  · rw [search_state_eq]
    exact hmain.2

/-- A found callback failing on every record. -/
def cbFailFn : StatefulFileInfo → Option GoError :=
  fun _ => some (.cbFail "boom")

def wFail : statefulFileWalker := { wUniq with FoundFileFn := cbFailFn }

/-- The first record reported by `wFail` over `tDup`. -/
def cbFailReport : StatefulFileInfo :=
  { AlreadySeen := false, FilePath := "/r/a.txt", PreviousFilePath := "",
    ParentDirPath := "/r", Hash := "h:hello",
    Info := { isDir := false, regular := true, content := .ok "hello" },
    AbsSearchDirPath := "/r" }

theorem callback_failure_aborts_search_witness :
    (search wFail tDup).1.reports[0]? = some cbFailReport ∧
    wFail.FoundFileFn cbFailReport = some (.cbFail "boom") ∧
    (0 + 1 = (search wFail tDup).1.reports.length ∧
      (search wFail tDup).2 = some (.cbFail "boom") ∧
      (search wFail tDup).1.visited.getLast?.map Prod.fst =
        some cbFailReport.FilePath) :=
  ⟨by decide, rfl,
    callback_failure_aborts_search wFail tDup 0 cbFailReport (.cbFail "boom")
      (by decide) rfl⟩

/-! ## Claim C7: a hashing failure aborts the walk -/

/-- An entry whose visit must fail the walk when dedup tracking is on:
an accepted regular file whose open/read fails. -/
def BadFile (o : statefulFileWalker) (x : String × FInfo) : Prop :=
  x.2.isDir = false ∧ x.2.regular = true ∧ o.IncludeFileFn x.1 = true ∧
    ∃ e, x.2.content = Except.error e

/-- Hash-failure invariant for a sub-walk from `s` to `(s', res)` with
dedup tracking on: all new visits except possibly the final one are of
harmless entries, and if the final visit is of an accepted unreadable
regular file the sub-walk result is the wrapped hash error for it. -/
def HshInv (o : statefulFileWalker) (s s' : WalkState) (res : StepRes) : Prop :=
  ∃ t, s'.visited = s.visited ++ t ∧
    (∀ x ∈ t.dropLast, ¬ BadFile o x) ∧
    (∀ x e, t.getLast? = some x → x.2.isDir = false → x.2.regular = true →
       o.IncludeFileFn x.1 = true → x.2.content = Except.error e →
       res = StepRes.err (.hashWrap x.1 e))

theorem HshInv_ok_all_good {o : statefulFileWalker} {s s' : WalkState}
    {res : StepRes} (h : HshInv o s s' res)
    (hres : ∀ e, res ≠ StepRes.err e) :
    ∃ t, s'.visited = s.visited ++ t ∧ ∀ x ∈ t, ¬ BadFile o x := by
  obtain ⟨t, ht, hdrop, hlast⟩ := h
  refine ⟨t, ht, ?_⟩
  intro x hx
  cases hgl : t.getLast? with
  | none =>
      rw [eq_nil_of_getLast?_eq_none hgl] at hx
      simp at hx
  | some last =>
      have hsplit := List.dropLast_append_getLast? last (by rw [hgl]; rfl)
      rw [← hsplit] at hx
      rcases List.mem_append.mp hx with h' | h'
      · exact hdrop x h'
      · simp at h'
        subst h'
        intro hbad
        obtain ⟨hd, hr, hinc, e, hc⟩ := hbad
        exact hres _ (hlast x e hgl hd hr hinc hc)

theorem HshInv_seq {o : statefulFileWalker} {s s1 s2 : WalkState}
    {r1 r2 : StepRes} (h1 : HshInv o s s1 r1) (hr1 : ∀ e, r1 ≠ StepRes.err e)
    (h2 : HshInv o s1 s2 r2) : HshInv o s s2 r2 := by
  obtain ⟨t1, ht1, hall⟩ := HshInv_ok_all_good h1 hr1
  obtain ⟨t2, ht2, hdrop2, hlast2⟩ := h2
  refine ⟨t1 ++ t2, by rw [ht2, ht1, List.append_assoc], ?_, ?_⟩
  · intro x hx
    cases t2 with
    | nil =>
        rw [List.append_nil] at hx
        exact hall x (List.dropLast_subset t1 hx)
    | cons b l =>
        rw [List.dropLast_append_cons] at hx
        rcases List.mem_append.mp hx with h' | h'
        · exact hall x h'
        · exact hdrop2 x h'
  · intro x e hgl hd hr hinc hc
    cases t2 with
    | nil =>
        rw [List.append_nil] at hgl
        have hmem := mem_of_getLast?_eq hgl
        exact absurd ⟨hd, hr, hinc, e, hc⟩ (hall x hmem)
    | cons b l =>
        rw [List.getLast?_append_of_ne_nil t1 (by simp)] at hgl
        exact hlast2 x e hgl hd hr hinc hc

theorem fileWalkFunc_hash_step (o : statefulFileWalker)
    (hAD : o.AllowDupes = false) (p : String) (i : FInfo) (s : WalkState) :
    HshInv o s (fileWalkFunc o p i none s).1 (fileWalkFunc o p i none s).2 := by
  have hvis : ∀ (s' : WalkState) (res : StepRes),
      s'.visited = s.visited ++ [(p, i)] →
      (∀ e, (p, i).2.isDir = false → (p, i).2.regular = true →
        o.IncludeFileFn p = true → i.content = Except.error e →
        res = StepRes.err (.hashWrap p e)) →
      HshInv o s s' res := by
    intro s' res hs' himp
    refine ⟨[(p, i)], by rw [hs'], by simp, ?_⟩
    intro x e hgl hd hr hinc hc
    simp at hgl
    subst hgl
    exact himp e hd hr hinc hc
  rcases fileWalkFunc_classify o p i s with
    ⟨hR, hD, hne, heq⟩ | ⟨hsk, heq⟩ | ⟨hd, hr, h3, heq⟩ | ⟨hd, hr, h3, hAD', heq⟩ |
    ⟨e, hd, hr, h3, hAD', hc, heq⟩ | ⟨data, pv, hd, hr, h3, hAD', hc, hlk, heq⟩ |
    ⟨data, pv, hd, hr, h3, hAD', hc, hlk, heq⟩
  · rw [heq]
    refine hvis _ _ (by simp [afterVisit]) ?_
    intro e hdd
    rw [hD] at hdd
    cases hdd
  · rw [heq]
    refine hvis _ _ (by simp [afterVisit]) ?_
    intro e hdd hrr
    rcases hsk with h | h
    · rw [hdd] at h; cases h
    · rw [hrr] at h; cases h
  · rw [heq]
    refine hvis _ _ (by simp [afterVisit, afterPred]) ?_
    intro e _ _ hinc
    rw [h3] at hinc
    cases hinc
  · rw [hAD'] at hAD
    cases hAD
  · rw [heq]
    refine hvis _ _ (by simp [afterVisit, afterPred, afterHashed]) ?_
    intro e' _ _ _ hc'
    rw [hc] at hc'
    rw [Except.error.inj hc']
  · rw [heq, emitReport_eq]
    refine hvis _ _
      (by simp [afterVisit, afterPred, afterHashed, afterLookup, afterReport]) ?_
    intro e' _ _ _ hc'
    rw [hc] at hc'
    cases hc'
  · rw [heq, emitReport_eq]
    refine hvis _ _
      (by simp [afterVisit, afterPred, afterHashed, afterLookup, afterInsert,
        afterReport]) ?_
    intro e' _ _ _ hc'
    rw [hc] at hc'
    cases hc'

mutual
theorem walkEntry_hash (o : statefulFileWalker) (hAD : o.AllowDupes = false)
    (p : String) (e : FsEntry) (s : WalkState) :
    HshInv o s (walkEntry o p e s).1 (walkEntry o p e s).2 := by
  cases e with
  | file n reg content =>
      rw [walkEntry_file]
      exact fileWalkFunc_hash_step o hAD p _ s
  | dir n entries =>
      rw [walkEntry_dir]
      have hstep := fileWalkFunc_hash_step o hAD p { isDir := true, regular := false, content := .ok "" } s
      rcases hF : fileWalkFunc o p { isDir := true, regular := false, content := .ok "" } none s with ⟨s1, r⟩
      rw [hF] at hstep
      cases r with
      | ok =>
          exact HshInv_seq hstep (fun e' h => StepRes.noConfusion h)
            (walkList_hash o hAD p entries s1)
      | skipDir => exact hstep
      | err er => exact hstep

theorem walkList_hash (o : statefulFileWalker) (hAD : o.AllowDupes = false)
    (dirPath : String) (l : FsEntries) (s : WalkState) :
    HshInv o s (walkList o dirPath l s).1 (walkList o dirPath l s).2 := by
  cases l with
  | nil =>
      rw [walkList_nil]
      exact ⟨[], by simp, by simp, by simp⟩
  | cons e rest =>
      rw [walkList_cons]
      have hstep := walkEntry_hash o hAD (joinPath dirPath e.name) e s
      rcases hW : walkEntry o (joinPath dirPath e.name) e s with ⟨s1, r⟩
      rw [hW] at hstep
      cases r with
      | ok =>
          exact HshInv_seq hstep (fun e' h => StepRes.noConfusion h)
            (walkList_hash o hAD dirPath rest s1)
      | skipDir =>
          by_cases hdd : e.finfo.isDir = true
          · simp only [hdd, if_true]
            exact HshInv_seq hstep (fun e' h => StepRes.noConfusion h)
              (walkList_hash o hAD dirPath rest s1)
          · simp only [hdd, if_false]
            exact hstep
      | err er => exact hstep
end

/-- Claim C7: with dedup tracking on, when the walk visits an accepted
regular file whose open/read fails, the whole walk stops at that entry
(it is the last one visited) and `search` returns the error wrapping the
underlying cause together with the offending file's path. -/
theorem hash_failure_aborts_search (o : statefulFileWalker) (root : FsEntry)
    (hAD : o.AllowDupes = false) :
    ∀ (p : String) (i : FInfo) (e : GoError),
      (p, i) ∈ (search o root).1.visited →
      i.isDir = false → i.regular = true → o.IncludeFileFn p = true →
      i.content = Except.error e →
      (search o root).2 = some (.hashWrap p e) ∧
      (search o root).1.visited.getLast? = some (p, i) := by
  intro p i e hmem hd hr hinc hc
  have hH := walkEntry_hash o hAD o.absTargetDirPath root initState
  obtain ⟨t, ht, hdrop, hlast⟩ := hH
  have hvis : (search o root).1.visited = t := by
    rw [search_state_eq, ht]
    simp [initState]
  rw [hvis] at hmem
  cases hgl : t.getLast? with
  | none =>
      rw [eq_nil_of_getLast?_eq_none hgl] at hmem
      simp at hmem
  | some last =>
      have hsplit := List.dropLast_append_getLast? last (by rw [hgl]; rfl)
      rw [← hsplit] at hmem
      rcases List.mem_append.mp hmem with h' | h'
      · exact absurd ⟨hd, hr, hinc, e, hc⟩ (hdrop (p, i) h')
      · simp at h'
        have hpi : last = (p, i) := h'.symm
        subst hpi
        refine ⟨?_, by rw [hvis]; exact hgl⟩
        rw [search_err_eq, hlast (p, i) e hgl hd hr hinc hc]

/-- Root holding an unreadable regular file. -/
def tBad : FsEntry :=
  .dir "r" (.cons (.file "bad" true (.error (.ioFail "eperm"))) .nil)

/-- The `FInfo` of the unreadable file in `tBad`. -/
def badInfo : FInfo :=
  { isDir := false, regular := true, content := .error (.ioFail "eperm") }

theorem hash_failure_aborts_search_witness :
    wUniq.AllowDupes = false ∧
    ("/r/bad", badInfo) ∈ (search wUniq tBad).1.visited ∧
    ((search wUniq tBad).2 = some (.hashWrap "/r/bad" (.ioFail "eperm")) ∧
      (search wUniq tBad).1.visited.getLast? = some ("/r/bad", badInfo)) :=
  ⟨rfl, by decide,
    hash_failure_aborts_search wUniq tBad rfl "/r/bad" badInfo
      (.ioFail "eperm") (by decide) rfl rfl rfl rfl⟩

/-! ## Claims C1 and C10: the dedup bookkeeping

`consistentFrom` says a report sequence is exactly what the dedup branch
of `fileWalkFunc` produces: each report's `AlreadySeen`/`PreviousFilePath`
are the map lookup of its digest at its point in the walk, and each
first-seen report inserts `TrimPrefix(FilePath, root)` for its digest. -/

/-- The first report in `rs` carrying digest `d`. -/
def firstWithHash (rs : List StatefulFileInfo) (d : String) :
    Option StatefulFileInfo :=
  rs.find? (fun r => r.Hash == d)

/-- The dedup-map update performed while producing report `r`. -/
def dedupStep (root : String) (m : List (String × String))
    (r : StatefulFileInfo) : List (String × String) :=
  if (mapGet m r.Hash).2 then m
  else mapInsert m r.Hash (trimPrefixGo r.FilePath root)

/-- The dedup map after producing the reports `rs`, starting empty. -/
def replayMap (root : String) (rs : List StatefulFileInfo) :
    List (String × String) :=
  List.foldl (dedupStep root) [] rs

def consistentFrom (root : String) :
    List (String × String) → List StatefulFileInfo → Prop
  | _, [] => True
  | m, r :: rest =>
      r.AlreadySeen = (mapGet m r.Hash).2 ∧
      r.PreviousFilePath = (mapGet m r.Hash).1 ∧
      consistentFrom root (dedupStep root m r) rest

/-- Mid-walk invariant of the dedup-tracking walk: the live map is the
replay of the report trace, and the trace is consistent. -/
def DInv (o : statefulFileWalker) (s : WalkState) : Prop :=
  s.fileHashesToPrevious = replayMap o.absTargetDirPath s.reports ∧
  consistentFrom o.absTargetDirPath [] s.reports

theorem consistentFrom_append (root : String) (rs : List StatefulFileInfo)
    (m : List (String × String)) (r : StatefulFileInfo) :
    consistentFrom root m (rs ++ [r]) ↔
      (consistentFrom root m rs ∧
        r.AlreadySeen = (mapGet (List.foldl (dedupStep root) m rs) r.Hash).2 ∧
        r.PreviousFilePath = (mapGet (List.foldl (dedupStep root) m rs) r.Hash).1) := by
  induction rs generalizing m with
  | nil =>
      simp [consistentFrom]
  | cons x rs ih =>
      simp only [List.cons_append, consistentFrom, List.foldl_cons, List.append_eq]
      rw [ih (dedupStep root m x)]
      tauto

theorem cf_index (root : String) (rs : List StatefulFileInfo)
    (m : List (String × String)) (h : consistentFrom root m rs) :
    ∀ (j : Nat) (r : StatefulFileInfo), rs[j]? = some r →
      r.AlreadySeen =
        (mapGet (List.foldl (dedupStep root) m (rs.take j)) r.Hash).2 ∧
      r.PreviousFilePath =
        (mapGet (List.foldl (dedupStep root) m (rs.take j)) r.Hash).1 := by
  induction rs generalizing m with
  | nil =>
      intro j r hj
      simp at hj
  | cons x rs ih =>
      intro j r hj
      obtain ⟨h1, h2, h3⟩ := h
      cases j with
      | zero =>
          simp at hj
          subst hj
          simp [List.take, h1, h2]
      | succ j =>
          simp only [List.getElem?_cons_succ] at hj
          have := ih (dedupStep root m x) h3 j r hj
          simpa [List.take_succ_cons] using this

theorem replay_char (root : String) (rs : List StatefulFileInfo)
    (m : List (String × String)) (d : String) :
    mapGet (List.foldl (dedupStep root) m rs) d =
      (if (mapGet m d).2 then mapGet m d
       else
         match firstWithHash rs d with
         | some f => (trimPrefixGo f.FilePath root, true)
         | none => ("", false)) := by
  induction rs generalizing m with
  | nil =>
      cases hm : (mapGet m d).2 with
      | true => simp [firstWithHash, hm]
      | false =>
          simp [firstWithHash, hm]
          have := mapGet_not_seen_val m d hm
          rcases hg : mapGet m d with ⟨v, b⟩
          rw [hg] at hm this
          simp at hm this
          rw [hm, this]
  | cons x rs ih =>
      simp only [List.foldl_cons]
      rw [ih (dedupStep root m x)]
      by_cases hxd : x.Hash = d
      · subst hxd
        cases hm : (mapGet m x.Hash).2 with
        | true =>
            have hstep : dedupStep root m x = m := by
              rw [dedupStep, hm]
              simp
            rw [hstep, hm]
            simp
        | false =>
            have hstep : dedupStep root m x =
                mapInsert m x.Hash (trimPrefixGo x.FilePath root) := by
              rw [dedupStep, hm]
              simp
            have hmg : mapGet (dedupStep root m x) x.Hash =
                (trimPrefixGo x.FilePath root, true) := by
              rw [hstep, mapGet_insert]
              simp
            rw [hmg]
            simp [firstWithHash, List.find?_cons_of_pos]
      · have hmd : mapGet (dedupStep root m x) d = mapGet m d := by
          rw [dedupStep]
          cases hm : (mapGet m x.Hash).2 with
          | true => simp
          | false =>
              simp only [Bool.false_eq_true, if_false]
              rw [mapGet_insert]
              simp [hxd]
        rw [hmd]
        have hfind : firstWithHash (x :: rs) d = firstWithHash rs d := by
          rw [firstWithHash, firstWithHash, List.find?_cons_of_neg]
          simp [hxd]
        rw [hfind]

theorem cf_count (root : String) (rs : List StatefulFileInfo)
    (m : List (String × String)) (h : consistentFrom root m rs) (d : String) :
    (rs.filter (fun r => r.Hash == d && !r.AlreadySeen)).length =
      (if (mapGet m d).2 then 0
       else if rs.any (fun r => r.Hash == d) then 1 else 0) := by
  induction rs generalizing m with
  | nil => simp
  | cons x rs ih =>
      obtain ⟨h1, h2, h3⟩ := h
      have ihx := ih (dedupStep root m x) h3
      by_cases hxd : x.Hash = d
      · subst hxd
        cases hm : (mapGet m x.Hash).2 with
        | true =>
            have hstep : dedupStep root m x = m := by
              rw [dedupStep, hm]; simp
            have hseen : x.AlreadySeen = true := by rw [h1, hm]
            rw [List.filter_cons]
            simp only [hseen, beq_self_eq_true, Bool.not_true, Bool.and_false,
              Bool.false_eq_true, if_false]
            rw [ihx, hstep, hm]
            simp
        | false =>
            have hstep : dedupStep root m x =
                mapInsert m x.Hash (trimPrefixGo x.FilePath root) := by
              rw [dedupStep, hm]; simp
            have hseen : x.AlreadySeen = false := by rw [h1, hm]
            rw [List.filter_cons]
            simp only [hseen, beq_self_eq_true, Bool.not_false, Bool.and_true,
              if_true]
            rw [List.length_cons, ihx, hstep, mapGet_insert]
            simp [hm]
      · have hmd : mapGet (dedupStep root m x) d = mapGet m d := by
          rw [dedupStep]
          cases hm : (mapGet m x.Hash).2 with
          | true => simp
          | false =>
              simp only [Bool.false_eq_true, if_false]
              rw [mapGet_insert]
              simp [hxd]
        rw [List.filter_cons]
        have hbeq : (x.Hash == d) = false := by simp [hxd]
        simp only [hbeq, Bool.false_and, Bool.false_eq_true, if_false]
        rw [ihx, hmd, List.any_cons]
        simp [hbeq]

theorem replayMap_append (root : String) (rs : List StatefulFileInfo)
    (r : StatefulFileInfo) :
    replayMap root (rs ++ [r]) = dedupStep root (replayMap root rs) r := by
  simp [replayMap, List.foldl_append]

theorem fileWalkFunc_dedup_step (o : statefulFileWalker)
    (hAD : o.AllowDupes = false) (p : String) (i : FInfo) (s : WalkState)
    (h : DInv o s) : DInv o (fileWalkFunc o p i none s).1 := by
  have hunch : ∀ s' : WalkState,
      s'.fileHashesToPrevious = s.fileHashesToPrevious →
      s'.reports = s.reports → DInv o s' := by
    intro s' hm hr
    exact ⟨by rw [hm, hr]; exact h.1, by rw [hr]; exact h.2⟩
  have hrep : ∀ (sx : WalkState) (b : Bool) (pv fh : String),
      sx.reports = s.reports →
      sx.fileHashesToPrevious =
        dedupStep o.absTargetDirPath s.fileHashesToPrevious
          (mkReport o p i b pv fh) →
      b = (mapGet s.fileHashesToPrevious fh).2 →
      pv = (mapGet s.fileHashesToPrevious fh).1 →
      DInv o (afterReport (mkReport o p i b pv fh) sx) := by
    intro sx b pv fh hxr hxm hb hpv
    constructor
    · show (afterReport (mkReport o p i b pv fh) sx).fileHashesToPrevious = _
      have hR : (afterReport (mkReport o p i b pv fh) sx).reports =
          s.reports ++ [mkReport o p i b pv fh] := by
        simp [afterReport, hxr]
      rw [hR, replayMap_append, ← h.1]
      simp only [afterReport]
      rw [hxm]
    · have hR : (afterReport (mkReport o p i b pv fh) sx).reports =
          s.reports ++ [mkReport o p i b pv fh] := by
        simp [afterReport, hxr]
      rw [hR, consistentFrom_append]
      refine ⟨h.2, ?_, ?_⟩
      · show (mkReport o p i b pv fh).AlreadySeen = _
        have hfold : List.foldl (dedupStep o.absTargetDirPath) [] s.reports =
            s.fileHashesToPrevious := by
          rw [h.1]; rfl
        rw [hfold]
        simp only [mkReport]
        rw [hb]
      · show (mkReport o p i b pv fh).PreviousFilePath = _
        have hfold : List.foldl (dedupStep o.absTargetDirPath) [] s.reports =
            s.fileHashesToPrevious := by
          rw [h.1]; rfl
        rw [hfold]
        simp only [mkReport]
        rw [hpv]
  rcases fileWalkFunc_classify o p i s with
    ⟨hR, hD, hne, heq⟩ | ⟨hsk, heq⟩ | ⟨hd, hr, h3, heq⟩ | ⟨hd, hr, h3, hAD', heq⟩ |
    ⟨e, hd, hr, h3, hAD', hc, heq⟩ | ⟨data, pv, hd, hr, h3, hAD', hc, hlk, heq⟩ |
    ⟨data, pv, hd, hr, h3, hAD', hc, hlk, heq⟩
  · rw [heq]
    exact hunch (afterVisit p i s) (by simp [afterVisit]) (by simp [afterVisit])
  · rw [heq]
    exact hunch (afterVisit p i s) (by simp [afterVisit]) (by simp [afterVisit])
  · rw [heq]
    exact hunch (afterPred p (afterVisit p i s)) (by simp [afterVisit, afterPred])
      (by simp [afterVisit, afterPred])
  · rw [hAD'] at hAD
    cases hAD
  · rw [heq]
    exact hunch (afterHashed p (afterPred p (afterVisit p i s)))
      (by simp [afterVisit, afterPred, afterHashed])
      (by simp [afterVisit, afterPred, afterHashed])
  · rw [heq, emitReport_eq]
    refine hrep _ true pv (o.hasher data)
      (by simp [afterVisit, afterPred, afterHashed, afterLookup]) ?_ ?_ ?_
    · simp only [afterVisit, afterPred, afterHashed, afterLookup]
      rw [dedupStep]
      have : (mkReport o p i true pv (o.hasher data)).Hash = o.hasher data := rfl
      rw [this, hlk]
      simp
    · rw [hlk]
    · rw [hlk]
  · rw [heq, emitReport_eq]
    refine hrep _ false pv (o.hasher data)
      (by simp [afterVisit, afterPred, afterHashed, afterLookup, afterInsert]) ?_ ?_ ?_
    · simp only [afterVisit, afterPred, afterHashed, afterLookup, afterInsert]
      rw [dedupStep]
      have h1 : (mkReport o p i false pv (o.hasher data)).Hash = o.hasher data := rfl
      have h2 : (mkReport o p i false pv (o.hasher data)).FilePath = p := rfl
      rw [h1, h2, hlk]
      rfl
    · rw [hlk]
    · rw [hlk]

mutual
theorem walkEntry_dedup (o : statefulFileWalker) (hAD : o.AllowDupes = false)
    (p : String) (e : FsEntry) (s : WalkState) (h : DInv o s) :
    DInv o (walkEntry o p e s).1 := by
  cases e with
  | file n reg content =>
      rw [walkEntry_file]
      exact fileWalkFunc_dedup_step o hAD p _ s h
  | dir n entries =>
      rw [walkEntry_dir]
      have hstep := fileWalkFunc_dedup_step o hAD p
        { isDir := true, regular := false, content := .ok "" } s h
      rcases hF : fileWalkFunc o p { isDir := true, regular := false, content := .ok "" } none s with ⟨s1, r⟩
      rw [hF] at hstep
      cases r with
      | ok => exact walkList_dedup o hAD p entries s1 hstep
      | skipDir => exact hstep
      | err er => exact hstep

theorem walkList_dedup (o : statefulFileWalker) (hAD : o.AllowDupes = false)
    (dirPath : String) (l : FsEntries) (s : WalkState) (h : DInv o s) :
    DInv o (walkList o dirPath l s).1 := by
  cases l with
  | nil =>
      rw [walkList_nil]
      exact h
  | cons e rest =>
      rw [walkList_cons]
      have hstep := walkEntry_dedup o hAD (joinPath dirPath e.name) e s h
      rcases hW : walkEntry o (joinPath dirPath e.name) e s with ⟨s1, r⟩
      rw [hW] at hstep
      cases r with
      | ok => exact walkList_dedup o hAD dirPath rest s1 hstep
      | skipDir =>
          by_cases hdd : e.finfo.isDir = true
          · simp only [hdd, if_true]
            exact walkList_dedup o hAD dirPath rest s1 hstep
          · simp only [hdd, if_false]
            exact hstep
      | err er => exact hstep
end

theorem search_dedup (o : statefulFileWalker) (hAD : o.AllowDupes = false)
    (root : FsEntry) : DInv o (search o root).1 := by
  rw [DInv, search_state_eq]
  exact walkEntry_dedup o hAD o.absTargetDirPath root initState
    ⟨rfl, trivial⟩

/-- Claim C1: with dedup tracking on, a report is marked unseen exactly
when no earlier report carried its digest; every report whose digest
appeared earlier is marked seen and carries the stored path
(`TrimPrefix` of the first carrier's absolute path by the root) of the
first report with that digest, which is also what the dedup index maps
the digest to; and for every digest that occurs, exactly one report is
marked unseen. -/
theorem search_dedup_invariant (o : statefulFileWalker) (root : FsEntry)
    (hAD : o.AllowDupes = false) :
    (∀ (j : Nat) (r : StatefulFileInfo),
        (search o root).1.reports[j]? = some r →
        (r.AlreadySeen = false ↔
          firstWithHash ((search o root).1.reports.take j) r.Hash = none)) ∧
    (∀ (j : Nat) (r f : StatefulFileInfo),
        (search o root).1.reports[j]? = some r →
        firstWithHash ((search o root).1.reports.take j) r.Hash = some f →
        r.AlreadySeen = true ∧
        r.PreviousFilePath = trimPrefixGo f.FilePath o.absTargetDirPath) ∧
    (∀ (d : String) (f : StatefulFileInfo),
        firstWithHash (search o root).1.reports d = some f →
        mapGet (search o root).1.fileHashesToPrevious d =
          (trimPrefixGo f.FilePath o.absTargetDirPath, true)) ∧
    (∀ d : String, (∃ r ∈ (search o root).1.reports, r.Hash = d) →
        ((search o root).1.reports.filter
          (fun r => r.Hash == d && !r.AlreadySeen)).length = 1) := by
  obtain ⟨hmap, hcf⟩ := search_dedup o hAD root
  have hchar : ∀ (j : Nat) (d : String),
      mapGet (List.foldl (dedupStep o.absTargetDirPath) []
        ((search o root).1.reports.take j)) d =
      (match firstWithHash ((search o root).1.reports.take j) d with
       | some f => (trimPrefixGo f.FilePath o.absTargetDirPath, true)
       | none => ("", false)) := by
    intro j d
    rw [replay_char]
    simp [mapGet]
  refine ⟨?_, ?_, ?_, ?_⟩
  · intro j r hjr
    have hidx := cf_index o.absTargetDirPath _ [] hcf j r hjr
    rw [hchar j r.Hash] at hidx
    cases hfw : firstWithHash ((search o root).1.reports.take j) r.Hash with
    | none =>
        rw [hfw] at hidx
        simp at hidx
        simp [hidx.1]
    | some f =>
        rw [hfw] at hidx
        simp at hidx
        simp [hidx.1]
  · intro j r f hjr hfw
    have hidx := cf_index o.absTargetDirPath _ [] hcf j r hjr
    rw [hchar j r.Hash, hfw] at hidx
    simp at hidx
    exact ⟨hidx.1, hidx.2⟩
  · intro d f hfw
    rw [hmap]
    simp only [replayMap]
    rw [replay_char]
    simp [mapGet]
    rw [hfw]
  · intro d hex
    rw [cf_count o.absTargetDirPath _ [] hcf d]
    have hany : (search o root).1.reports.any (fun r => r.Hash == d) = true := by
      obtain ⟨r, hmem, hh⟩ := hex
      exact List.any_eq_true.mpr ⟨r, hmem, by simp [hh]⟩
    simp [mapGet, hany]

/-- The first and second records reported by `wUniq` over `tDup`. -/
def reportA : StatefulFileInfo :=
  { AlreadySeen := false, FilePath := "/r/a.txt", PreviousFilePath := "",
    ParentDirPath := "/r", Hash := "h:hello",
    Info := { isDir := false, regular := true, content := .ok "hello" },
    AbsSearchDirPath := "/r" }

def reportB : StatefulFileInfo :=
  { AlreadySeen := true, FilePath := "/r/b.txt", PreviousFilePath := "/a.txt",
    ParentDirPath := "/r", Hash := "h:hello",
    Info := { isDir := false, regular := true, content := .ok "hello" },
    AbsSearchDirPath := "/r" }

theorem search_dedup_invariant_witness :
    wUniq.AllowDupes = false ∧
    (search wUniq tDup).1.reports[1]? = some reportB ∧
    firstWithHash ((search wUniq tDup).1.reports.take 1) reportB.Hash =
      some reportA ∧
    (reportB.AlreadySeen = true ∧
      reportB.PreviousFilePath =
        trimPrefixGo reportA.FilePath wUniq.absTargetDirPath) :=
  ⟨rfl, by decide, by decide,
    (search_dedup_invariant wUniq tDup rfl).2.1 1 reportB reportA
      (by decide) (by decide)⟩

/-! ## Claim C10: `AlreadySeen` versus `PreviousFilePath` -/

theorem trimPrefixGo_append (a b : String) : trimPrefixGo (a ++ b) a = b := by
  unfold trimPrefixGo
  have hpre : a.data.isPrefixOf (a ++ b).data = true := by
    rw [String.data_append, List.isPrefixOf_iff_prefix]
    exact ⟨b.data, rfl⟩
  rw [if_pos hpre]
  have hdrop : (a ++ b).data.drop a.data.length = b.data := by
    rw [String.data_append, List.drop_left]
  cases b with
  | mk bd => simp [hdrop]

theorem slash_append_ne_empty (t : String) : ("/" ++ t) ≠ "" := by
  intro h
  have := congrArg String.data h
  rw [String.data_append] at this
  cases this

/-- Every report produced below path `pfx` is for `pfx` itself or for a
path strictly below it. -/
def RInv (pfx : String) (s s' : WalkState) : Prop :=
  ∃ t, s'.reports = s.reports ++ t ∧
    ∀ r ∈ t, r.FilePath = pfx ∨ ∃ suffix, r.FilePath = pfx ++ "/" ++ suffix

/-- Every report produced by scanning entries of directory `dirPath` is
for a path strictly below `dirPath`. -/
def LInv (dirPath : String) (s s' : WalkState) : Prop :=
  ∃ t, s'.reports = s.reports ++ t ∧
    ∀ r ∈ t, ∃ suffix, r.FilePath = dirPath ++ "/" ++ suffix

theorem fileWalkFunc_path_step (o : statefulFileWalker) (p : String) (i : FInfo)
    (s : WalkState) : RInv p s (fileWalkFunc o p i none s).1 := by
  have hnone : ∀ s' : WalkState, s'.reports = s.reports → RInv p s s' := by
    intro s' hs'
    exact ⟨[], by simp [hs'], by simp⟩
  have hrep : ∀ (sx : WalkState) (b : Bool) (pv fh : String),
      sx.reports = s.reports →
      RInv p s (afterReport (mkReport o p i b pv fh) sx) := by
    intro sx b pv fh hs'
    refine ⟨[mkReport o p i b pv fh], by simp [afterReport, hs'], ?_⟩
    intro r hr
    simp at hr
    subst hr
    exact Or.inl rfl
  rcases fileWalkFunc_classify o p i s with
    ⟨hR, hD, hne, heq⟩ | ⟨hsk, heq⟩ | ⟨hd, hr, h3, heq⟩ | ⟨hd, hr, h3, hAD', heq⟩ |
    ⟨e, hd, hr, h3, hAD', hc, heq⟩ | ⟨data, pv, hd, hr, h3, hAD', hc, hlk, heq⟩ |
    ⟨data, pv, hd, hr, h3, hAD', hc, hlk, heq⟩
  · rw [heq]; exact hnone (afterVisit p i s) (by simp [afterVisit])
  · rw [heq]; exact hnone (afterVisit p i s) (by simp [afterVisit])
  · rw [heq]
    exact hnone (afterPred p (afterVisit p i s)) (by simp [afterVisit, afterPred])
  · rw [heq, emitReport_eq]
    exact hrep (afterPred p (afterVisit p i s)) false "" ""
      (by simp [afterVisit, afterPred])
  · rw [heq]
    exact hnone (afterHashed p (afterPred p (afterVisit p i s)))
      (by simp [afterVisit, afterPred, afterHashed])
  · rw [heq, emitReport_eq]
    exact hrep (afterLookup (o.hasher data) (afterHashed p (afterPred p (afterVisit p i s))))
      true pv (o.hasher data)
      (by simp [afterVisit, afterPred, afterHashed, afterLookup])
  · rw [heq, emitReport_eq]
    exact hrep (afterInsert o p (o.hasher data)
        (afterLookup (o.hasher data) (afterHashed p (afterPred p (afterVisit p i s)))))
      false pv (o.hasher data)
      (by simp [afterVisit, afterPred, afterHashed, afterLookup, afterInsert])

theorem RInv_child_to_LInv {dp : String} {e : FsEntry}
    {s s' : WalkState} (h : RInv (joinPath dp e.name) s s') : LInv dp s s' := by
  obtain ⟨t, ht, hall⟩ := h
  refine ⟨t, ht, ?_⟩
  intro r hr
  rcases hall r hr with h' | ⟨suf, h'⟩
  · exact ⟨e.name, h'⟩
  · refine ⟨e.name ++ ("/" ++ suf), ?_⟩
    rw [h']
    show joinPath dp e.name ++ "/" ++ suf = _
    rw [joinPath, String.append_assoc (dp ++ "/" ++ e.name),
      String.append_assoc (dp ++ "/")]

theorem LInv_refl (dp : String) (s : WalkState) : LInv dp s s :=
  ⟨[], by simp, by simp⟩

theorem LInv_trans {dp : String} {s1 s2 s3 : WalkState}
    (h12 : LInv dp s1 s2) (h23 : LInv dp s2 s3) : LInv dp s1 s3 := by
  obtain ⟨t1, ht1, hall1⟩ := h12
  obtain ⟨t2, ht2, hall2⟩ := h23
  refine ⟨t1 ++ t2, by rw [ht2, ht1, List.append_assoc], ?_⟩
  intro r hr
  rcases List.mem_append.mp hr with h' | h'
  · exact hall1 r h'
  · exact hall2 r h'

theorem RInv_LInv_trans {pfx : String} {s1 s2 s3 : WalkState}
    (h12 : RInv pfx s1 s2) (h23 : LInv pfx s2 s3) : RInv pfx s1 s3 := by
  obtain ⟨t1, ht1, hall1⟩ := h12
  obtain ⟨t2, ht2, hall2⟩ := h23
  refine ⟨t1 ++ t2, by rw [ht2, ht1, List.append_assoc], ?_⟩
  intro r hr
  rcases List.mem_append.mp hr with h' | h'
  · exact hall1 r h'
  · exact Or.inr (hall2 r h')

mutual
theorem walkEntry_path (o : statefulFileWalker) (p : String) (e : FsEntry)
    (s : WalkState) : RInv p s (walkEntry o p e s).1 := by
  cases e with
  | file n reg content =>
      rw [walkEntry_file]
      exact fileWalkFunc_path_step o p _ s
  | dir n entries =>
      rw [walkEntry_dir]
      have hstep := fileWalkFunc_path_step o p { isDir := true, regular := false, content := .ok "" } s
      rcases hF : fileWalkFunc o p { isDir := true, regular := false, content := .ok "" } none s with ⟨s1, r⟩
      rw [hF] at hstep
      cases r with
      | ok => exact RInv_LInv_trans hstep (walkList_path o p entries s1)
      | skipDir => exact hstep
      | err er => exact hstep

theorem walkList_path (o : statefulFileWalker) (dirPath : String) (l : FsEntries)
    (s : WalkState) : LInv dirPath s (walkList o dirPath l s).1 := by
  cases l with
  | nil =>
      rw [walkList_nil]
      exact LInv_refl dirPath s
  | cons e rest =>
      rw [walkList_cons]
      have hstep : LInv dirPath s (walkEntry o (joinPath dirPath e.name) e s).1 :=
        RInv_child_to_LInv (e := e)
          (walkEntry_path o (joinPath dirPath e.name) e s)
      rcases hW : walkEntry o (joinPath dirPath e.name) e s with ⟨s1, r⟩
      rw [hW] at hstep
      cases r with
      | ok => exact LInv_trans hstep (walkList_path o dirPath rest s1)
      | skipDir =>
          by_cases hdd : e.finfo.isDir = true
          · simp only [hdd, if_true]
            exact LInv_trans hstep (walkList_path o dirPath rest s1)
          · simp only [hdd, if_false]
            exact hstep
      | err er => exact hstep
end

theorem search_dir_paths (o : statefulFileWalker) (nm : String) (l : FsEntries) :
    ∀ r ∈ (search o (.dir nm l)).1.reports,
      ∃ suffix, r.FilePath = o.absTargetDirPath ++ "/" ++ suffix := by
  rw [search_state_eq, walkEntry_dir]
  rcases fileWalkFunc_classify o o.absTargetDirPath
      { isDir := true, regular := false, content := Except.ok "" } initState with
    ⟨hR, hD, hne, heq⟩ | ⟨hsk, heq⟩ | ⟨hd, hr, h3, heq⟩ | ⟨hd, hr, h3, hAD', heq⟩ |
    ⟨e, hd, hr, h3, hAD', hc, heq⟩ | ⟨data, pv, hd, hr, h3, hAD', hc, hlk, heq⟩ |
    ⟨data, pv, hd, hr, h3, hAD', hc, hlk, heq⟩
  · exact absurd rfl hne
  · rw [heq]
    have hL := walkList_path o o.absTargetDirPath l
      (afterVisit o.absTargetDirPath
        { isDir := true, regular := false, content := Except.ok "" } initState)
    obtain ⟨t, ht, hall⟩ := hL
    intro r hmem
    rw [ht] at hmem
    simp [afterVisit, initState] at hmem
    exact hall r hmem
  · cases hd
  · cases hd
  · cases hd
  · cases hd
  · cases hd

theorem fileWalkFunc_reports_le (o : statefulFileWalker) (p : String) (i : FInfo)
    (s : WalkState) :
    (fileWalkFunc o p i none s).1.reports.length ≤ s.reports.length + 1 := by
  rcases fileWalkFunc_classify o p i s with
    ⟨hR, hD, hne, heq⟩ | ⟨hsk, heq⟩ | ⟨hd, hr, h3, heq⟩ | ⟨hd, hr, h3, hAD', heq⟩ |
    ⟨e, hd, hr, h3, hAD', hc, heq⟩ | ⟨data, pv, hd, hr, h3, hAD', hc, hlk, heq⟩ |
    ⟨data, pv, hd, hr, h3, hAD', hc, hlk, heq⟩ <;>
  rw [heq] <;> (try rw [emitReport_eq]) <;>
  simp [afterVisit, afterPred, afterHashed, afterLookup, afterInsert, afterReport]

/-- Claim C10: in every record passed to the found callback,
`AlreadySeen = true` exactly when `PreviousFilePath` is non-empty: a
first-seen or dedup-disabled record carries an empty `PreviousFilePath`,
and an `AlreadySeen` record carries the non-empty stored path of its
earlier occurrence. -/
theorem alreadySeen_iff_previous_nonempty (o : statefulFileWalker)
    (root : FsEntry) :
    ∀ r ∈ (search o root).1.reports,
      (r.AlreadySeen = true ↔ r.PreviousFilePath ≠ "") := by
  intro r hmem
  cases hAD : o.AllowDupes with
  | true =>
      obtain ⟨hm, hh, hd, t, hr, ha⟩ := search_allowDupes o hAD root
      rw [hr] at hmem
      simp [initState] at hmem
      obtain ⟨hseen, hhash, hprev⟩ := ha r hmem
      rw [hseen, hprev]
      simp
  | false =>
      obtain ⟨hmap, hcf⟩ := search_dedup o hAD root
      obtain ⟨j, hjr⟩ := List.mem_iff_getElem?.mp hmem
      have hidx := cf_index o.absTargetDirPath _ [] hcf j r hjr
      rw [replay_char] at hidx
      simp only [mapGet] at hidx
      cases hfw : firstWithHash ((search o root).1.reports.take j) r.Hash with
      | none =>
          rw [hfw] at hidx
          simp at hidx
          rw [hidx.1, hidx.2]
          simp
      | some f =>
          rw [hfw] at hidx
          simp at hidx
          rw [hidx.1, hidx.2]
          have hfmem : f ∈ (search o root).1.reports :=
            List.mem_of_mem_take (List.mem_of_find?_eq_some hfw)
          have hjpos : 1 ≤ j := by
            by_contra hj0
            have : j = 0 := by omega
            subst this
            simp [firstWithHash] at hfw
          cases root with
          | file n reg content =>
              have hlen : (search o (FsEntry.file n reg content)).1.reports.length ≤ 1 := by
                rw [search_state_eq, walkEntry_file]
                have := fileWalkFunc_reports_le o o.absTargetDirPath
                  { isDir := false, regular := reg, content := content } initState
                simpa [initState] using this
              have hjlen : j < (search o (FsEntry.file n reg content)).1.reports.length := by
                by_contra hge
                rw [List.getElem?_eq_none (by omega)] at hjr
                cases hjr
              omega
          | dir nm l =>
              obtain ⟨suffix, hsuf⟩ := search_dir_paths o nm l f hfmem
              rw [hsuf, String.append_assoc, trimPrefixGo_append]
              simp [slash_append_ne_empty]

theorem alreadySeen_iff_previous_nonempty_witness :
    reportB ∈ (search wUniq tDup).1.reports ∧
    (reportB.AlreadySeen = true ↔ reportB.PreviousFilePath ≠ "") :=
  ⟨by decide,
    alreadySeen_iff_previous_nonempty wUniq tDup reportB (by decide)⟩
